import Mathlib

/-!
Shallow embedding of `rl_agents/agents/tree_search/deterministic.py`
(`OptimisticDeterministicPlanner` / `DeterministicNode`), the Open Loop Optimistic
Planning core, together with theorems settling the specification claims about it.

Conventions of the embedding:
* Python floats are modelled as exact rationals (`ℚ`).
* The environment is a deterministic transition function `step : E → ℕ → E × ℚ × Bool`
  returning (next state, reward, done); `safe_deepcopy_env` is an independent value
  copy, which in a functional embedding is the identity on the state value.
* The mutable object tree is modelled as an inductive tree addressed by paths (lists
  of action indices).  Children are stored as a list whose position is the action
  identifier: the source inserts `self.children[action]` for `action` in
  `range(n)` in increasing order, so the dict is a dense prefix of `[0, n)`.
* The Leaf Set (`self.leaves`) holds paths instead of object references.  After
  subtree rebasing the source list may retain references into discarded subtrees;
  those are unreachable from the new root and are dropped from the path list (no
  claim observes them).
* Exceptions are modelled by a `raised` flag on the planner state: once it is set the
  remaining statements of the interrupted call are skipped, as the exception would
  skip them, and callers stop, as the propagating exception would stop them.
* Two ghost fields record observable behaviour without influencing anything:
  `trace` is the ordered list of metered Simulation-Oracle calls as (state, action)
  pairs, and `runCount` counts the invocations of `run()`.
-/

/-- Action paths from the root: the list of action indices leading to a node. -/
abbrev APath := List ℕ

/-- Binary maximum on `ℚ` (same function as `max`, see `qmax_eq_max`). -/
def qmax (a b : ℚ) : ℚ := if a ≤ b then b else a

/-- `np.amax` over a list of rationals.  The empty case is unreachable at every use
site in the source (`np.amax` raises there); it is given the junk value 0. -/
def amax : List ℚ → ℚ
  | [] => 0
  | x :: xs => xs.foldl qmax x

/-- A `DeterministicNode`: state snapshot, depth, cached reward / value / upper bound,
visit count, termination flag and the owned children map (see the conventions above
for why the children dict is a list). -/
inductive DNode (E : Type) : Type where
  | mk (state : Option E) (depth : ℕ) (reward : ℚ) (value : ℚ)
      (valueUpperBound : ℚ) (count : ℕ) (done : Bool)
      (children : List (DNode E)) : DNode E

namespace DNode

variable {E : Type}

def state : DNode E → Option E | mk st _ _ _ _ _ _ _ => st
def depth : DNode E → ℕ | mk _ d _ _ _ _ _ _ => d
def reward : DNode E → ℚ | mk _ _ r _ _ _ _ _ => r
def value : DNode E → ℚ | mk _ _ _ v _ _ _ _ => v
def valueUpperBound : DNode E → ℚ | mk _ _ _ _ u _ _ _ => u
def count : DNode E → ℕ | mk _ _ _ _ _ k _ _ => k
def done : DNode E → Bool | mk _ _ _ _ _ _ dn _ => dn
def children : DNode E → List (DNode E) | mk _ _ _ _ _ _ _ cs => cs

def setState (o : Option E) : DNode E → DNode E
  | mk _ d r v u k dn cs => mk o d r v u k dn cs
def setReward (r : ℚ) : DNode E → DNode E
  | mk st d _ v u k dn cs => mk st d r v u k dn cs
def setValue (v : ℚ) : DNode E → DNode E
  | mk st d r _ u k dn cs => mk st d r v u k dn cs
def setVub (u : ℚ) : DNode E → DNode E
  | mk st d r v _ k dn cs => mk st d r v u k dn cs
def setDone (dn : Bool) : DNode E → DNode E
  | mk st d r v u k _ cs => mk st d r v u k dn cs
def incCount : DNode E → DNode E
  | mk st d r v u k dn cs => mk st d r v u (k + 1) dn cs
def setChildren (cs : List (DNode E)) : DNode E → DNode E
  | mk st d r v u k dn _ => mk st d r v u k dn cs

/-- `self.get_value_upper_bound()` (defined in the source file): returns
`self.value_upper_bound`. -/
def getValueUpperBound (t : DNode E) : ℚ := t.valueUpperBound

/-- Modelled from the spec: `Node.get_value` of the abstract scaffolding (not under
src/) reads the node's cached `value` estimate (the Selection Rule "collect[s] all
child `value` estimates"). -/
def getValue (t : DNode E) : ℚ := t.value

end DNode

variable {E : Type}

/-- `DeterministicNode.__init__` for a freshly created child: reward 0, upper bound 0,
count 1, done false, no children, the given cloned state and depth.
The `value = 0` initialisation is Modelled from the spec: it is performed by the base
`Node.__init__` (abstract scaffolding, not under src/), the spec's "zero-initialized
reward/value/bound" at child creation. -/
def mkChild (st : E) (dep : ℕ) : DNode E :=
  .mk (some st) dep 0 0 0 1 false []

/-- The node a path points at, if the path is valid. -/
def getNode : DNode E → APath → Option (DNode E)
  | t, [] => some t
  | t, a :: rest =>
    match t.children.get? a with
    | none => none
    | some c => getNode c rest

/-- Rewrite the node a path points at (identity if the path is invalid, which is
unreachable at use sites: the source holds direct object references). -/
def modifyAt : DNode E → APath → (DNode E → DNode E) → DNode E
  | t, [], f => f t
  | t, a :: rest, f =>
    match t.children.get? a with
    | none => t
    | some c => t.setChildren (t.children.set a (modifyAt c rest f))

/-- `DeterministicNode.update(reward, done)`.  The caller passes the discount
`gamma = planner.config["gamma"]` and `parentValue = self.parent.value` (the source
reads them through the planner / parent references).  The range check
`np.all(0 <= reward) and np.all(reward <= 1)` precedes every field assignment; for the
scalar rewards of this embedding the elementwise check degenerates to the plain
bounds.  `(1 - done)` is Python bool arithmetic: 0 if done else 1. -/
def update (gamma parentValue : ℚ) (node : DNode E) (reward : ℚ) (dn : Bool) :
    Except String (DNode E) :=
  if ¬(0 ≤ reward ∧ reward ≤ 1) then
    .error "This planner assumes that all rewards are normalized in 0..1"
  else
    let value := parentValue + gamma ^ (node.depth - 1) * reward
    .ok ((((node.setReward reward).setValue value).setDone dn).setVub
      (value + (if dn then 0 else 1) * gamma ^ node.depth / (1 - gamma)))

mutual
/-- `DeterministicNode.backup_values()`: full recursive recomputation.  A childless
node returns its current `(value, value_upper_bound)`; otherwise every child is
recomputed recursively (in order, `backupValuesL`), the node's `value` /
`value_upper_bound` become the maxima of the children's returned pairs, and the new
pair is returned. -/
def backupValuesT : DNode E → DNode E × ℚ × ℚ
  | .mk st d r v u k dn [] => (.mk st d r v u k dn [], v, u)
  | .mk st d r _ _ k dn (c0 :: cs) =>
    let bs := backupValuesL (c0 :: cs)
    let v' := amax (bs.map (fun b => b.2.1))
    let u' := amax (bs.map (fun b => b.2.2))
    (.mk st d r v' u' k dn (bs.map (fun b => b.1)), v', u')

/-- The list comprehension `[child.backup_values() for child in self.children.values()]`. -/
def backupValuesL : List (DNode E) → List (DNode E × ℚ × ℚ)
  | [] => []
  | c :: cs => backupValuesT c :: backupValuesL cs
end

/-- `DeterministicNode.backup_to_root()`, reformulated on (tree, path of the calling
node).  The source recursion climbs `parent` pointers, performing at each level, for
the calling node `n` with parent `p`: snapshot the (value, value_upper_bound) pairs of
all of `p`'s children, set `p.value` to the max of the values, set `n`'s own
`value_upper_bound` to the max of the bounds, recurse on `p`, then increment
`n.count`.  The assignments therefore run bottom-up along the path; this definition
produces the same sequence by structural recursion on the path from the root: the
recursive call on the child subtree performs all deeper assignments first, then this
level's assignments run.  `backup_to_root` on a parentless node (empty path) does
nothing. -/
def backupToRootT : DNode E → APath → DNode E
  | t, [] => t
  | t, a :: rest =>
    match t.children.get? a with
    | none => t
    | some c =>
      let cRec := backupToRootT c rest
      let ch1 := t.children.set a cRec
      let newVal := amax (ch1.map DNode.value)
      let newVub := amax (ch1.map DNode.valueUpperBound)
      (t.setChildren (ch1.set a ((cRec.setVub newVub).incCount))).setValue newVal

/-- First index attaining the maximum of a list (0 for the empty list, unreachable at
use sites).  Stands for `random_argmax` of the abstract scaffolding (not under src/);
Modelled from the spec: "if multiple children tie for the maximum, break ties
uniformly at random" — the embedding picks a fixed representative of the argmax set
(the first index), since no claim depends on the tie-break. -/
def firstArgmax : List ℚ → ℕ
  | [] => 0
  | x :: xs =>
    (xs.foldl (fun (acc : ℕ × ℕ × ℚ) y =>
      if acc.2.2 < y then (acc.2.1, acc.2.1 + 1, y) else (acc.1, acc.2.1 + 1, acc.2.2))
      (0, 1, x)).1

/-- `DeterministicNode.selection_rule()`: `None` for a childless node, else the action
(= child index) of a maximal child `get_value()`. -/
def selectionRule (t : DNode E) : Option ℕ :=
  match t.children with
  | [] => none
  | _ :: _ => some (firstArgmax (t.children.map DNode.getValue))

/-- The configuration options read by the core (`default_config` sets
`restart := false` and `ignore_terminal := true`; `budget` and `gamma` come from the
generic planner configuration). -/
structure Cfg where
  gamma : ℚ
  budget : ℕ
  restart : Bool
  ignoreTerminal : Bool

/-- The external deterministic environment: a discrete action-space size `n` and a
transition function returning (next state, reward, done). -/
structure Env (E : Type) where
  n : ℕ
  step : E → ℕ → E × ℚ × Bool

/-- The `OptimisticDeterministicPlanner` state: configuration, environment, the root
of the tree, the Leaf Set (paths), the oracle-call counter, the exception flag, and
the two ghost fields (see the module conventions). -/
structure PlannerState (E : Type) where
  cfg : Cfg
  env : Env E
  root : DNode E
  leaves : List APath
  oracleCalls : ℕ
  raised : Bool
  trace : List (E × ℕ)
  runCount : ℕ

/-- Modelled from the spec: `AbstractPlanner.step_state` (the Simulation Oracle
wrapper, not under src/) performs one deterministic environment transition and
"increments a process-wide oracle-call counter by exactly one per call".  The ghost
`trace` records the call.  The in-place mutation of the passed state object is
modelled by returning the successor state to the caller. -/
def stepState (s : PlannerState E) (st : E) (a : ℕ) :
    PlannerState E × E × ℚ × Bool :=
  let r := s.env.step st a
  ({ s with oracleCalls := s.oracleCalls + 1, trace := s.trace ++ [(st, a)] },
    r.1, r.2.1, r.2.2)

/-- The fake-restart loop of `DeterministicNode.expand`:
`for _ in range(self.depth): planner.step_state(safe_deepcopy_env(children[action].state), action)`,
checking the budget after each call.  Each iteration steps a fresh clone of the new
child's (still unstepped) state — i.e. the constant value `st` — with the child's own
action `a`, discarding the result.  Returns `(state, budget-hit?)`. -/
def restartLoop : PlannerState E → E → ℕ → ℕ → PlannerState E × Bool
  | s, _, _, 0 => (s, false)
  | s, st, a, k + 1 =>
    let s1 := (stepState s st a).1
    if s1.cfg.budget ≤ s1.oracleCalls then (s1, true)
    else restartLoop s1 st a k

/-- The `for action in actions:` loop of `DeterministicNode.expand`, processing the
remaining action list for the node at path `p`.  Returns the planner state together
with `true` when the loop ran to completion and `false` when one of the two early
`return`s (budget reached) or a propagating exception cut it short.  Per action,
exactly as in the source:
1. create the child with a clone of `self.state` and depth `self.depth + 1` and
   insert it into `self.children` (list append: actions arrive in increasing order);
2. if `config["restart"]`, run the fake-restart loop, returning immediately on
   budget exhaustion;
3. step the child's own cloned state (`step_state` mutates it in place: the
   successor state is written into the child), call `update` on the child — a range
   violation there raises, aborting the expansion — and return if the oracle-call
   counter has reached the budget. -/
def expandActions : PlannerState E → APath → List ℕ → PlannerState E × Bool
  | s, _, [] => (s, true)
  | s, p, a :: rest =>
    match getNode s.root p with
    | none => ({ s with raised := true }, false)   -- unreachable: direct reference in source
    | some self =>
      match self.state with
      | none => ({ s with raised := true }, false) -- unreachable: checked by expand
      | some st =>
        match (if s.cfg.restart then restartLoop { s with root := modifyAt s.root p (fun t => t.setChildren (t.children ++ [mkChild st (self.depth + 1)])) } st a self.depth else ({ s with root := modifyAt s.root p (fun t => t.setChildren (t.children ++ [mkChild st (self.depth + 1)])) }, false)) with
        | (s2, true) => (s2, false)
        | (s2, false) =>
          match getNode (modifyAt (stepState s2 st a).1.root (p ++ [a]) (fun t => t.setState (some (stepState s2 st a).2.1))) (p ++ [a]) with
          | none => ({ (stepState s2 st a).1 with root := modifyAt (stepState s2 st a).1.root (p ++ [a]) (fun t => t.setState (some (stepState s2 st a).2.1)), raised := true }, false)  -- unreachable
          | some child =>
            match update (stepState s2 st a).1.cfg.gamma self.value child (stepState s2 st a).2.2.1 (stepState s2 st a).2.2.2 with
            | .error _ => ({ (stepState s2 st a).1 with root := modifyAt (stepState s2 st a).1.root (p ++ [a]) (fun t => t.setState (some (stepState s2 st a).2.1)), raised := true }, false)
            | .ok child2 =>
              if (stepState s2 st a).1.cfg.budget ≤ (stepState s2 st a).1.oracleCalls then
                ({ (stepState s2 st a).1 with root := modifyAt (modifyAt (stepState s2 st a).1.root (p ++ [a]) (fun t => t.setState (some (stepState s2 st a).2.1))) (p ++ [a]) (fun _ => child2) }, false)
              else
                expandActions { (stepState s2 st a).1 with root := modifyAt (modifyAt (stepState s2 st a).1.root (p ++ [a]) (fun t => t.setState (some (stepState s2 st a).2.1))) (p ++ [a]) (fun _ => child2) } p rest

/-- `DeterministicNode.expand(leaves)` on the node at path `p`.  A missing state is
the fatal precondition violation (`raise Exception(...)`).  The action range is
`range(self.state.action_space.n)` (the `try`/`except AttributeError` in the source
has identical branches), here the uniform `env.n`.  Only when the loop ran to
completion do `leaves.remove(self)` and `leaves.extend(self.children.values())`
execute — the early `return`s inside the loop skip them. -/
def expand (s : PlannerState E) (p : APath) : PlannerState E :=
  match getNode s.root p with
  | none => s  -- unreachable: direct reference in source
  | some self =>
    match self.state with
    | none => { s with raised := true }  -- raise Exception("The state should be set ...")
    | some _ =>
      let r := expandActions s p (List.range s.env.n)
      if r.2 then
        { r.1 with leaves :=
            r.1.leaves.erase p ++ (List.range r.1.env.n).map (fun a => p ++ [a]) }
      else r.1

/-- `n.get_value_upper_bound()` of the node a leaf path points at (0 on an invalid
path, unreachable at use sites). -/
def vubAt (s : PlannerState E) (q : APath) : ℚ :=
  match getNode s.root q with
  | some n => n.getValueUpperBound
  | none => 0

/-- `max(self.leaves, key=lambda n: n.get_value_upper_bound())`: Python's `max`
returns the first maximal element, so the accumulator is replaced only on a strictly
larger key.  `none` on an empty Leaf Set (where Python's `max` raises). -/
def argmaxVub (s : PlannerState E) : Option APath :=
  match s.leaves with
  | [] => none
  | q :: qs =>
    some (qs.foldl (fun best cand => if vubAt s best < vubAt s cand then cand else best) q)

/-- `OptimisticDeterministicPlanner.run()`: pick the Leaf-Set node with maximal upper
bound; expand it unless it is terminal and `ignore_terminal` is false; then
`backup_to_root` from it.  The ghost `runCount` counts the invocations. -/
def run (s0 : PlannerState E) : PlannerState E :=
  if s0.raised then s0 else
  let s := { s0 with runCount := s0.runCount + 1 }
  match argmaxVub s with
  | none => { s with raised := true }      -- max([...]) raises on an empty Leaf Set
  | some p =>
    match getNode s.root p with
    | none => { s with raised := true }    -- unreachable: leaf paths are valid
    | some leaf =>
      let s1 := if !leaf.done || s.cfg.ignoreTerminal then expand s p else s
      if s1.raised then s1
      else { s1 with root := backupToRootT s1.root p }

/-- The bounded loop of `OptimisticDeterministicPlanner.plan`: up to `k` iterations
of `run()`, breaking once the oracle-call counter has reached the budget; a
propagating exception (raised flag) also ends the loop. -/
def planLoop : ℕ → PlannerState E → PlannerState E
  | 0, s => s
  | k + 1, s =>
    if s.raised then s
    else
      let s1 := run s
      if s1.cfg.budget ≤ s1.oracleCalls then s1
      else planLoop k s1

/-- `int(np.ceil(budget / n))` for positive integers, computed exactly. -/
def ceilDiv (a b : ℕ) : ℕ := (a + b - 1) / b

/-- `OptimisticDeterministicPlanner.plan(state, observation)`: bind the given state
to the root, reset the oracle-call counter (Modelled from the spec:
`reset_oracle_calls`, abstract scaffolding not under src/, "resets the global
oracle-call counter to zero" — the ghost trace and run counter reset with it), then
loop `run()` up to `ceil(budget / n)` times, stopping early at the budget.  `n = 0`
makes the Python division raise.  The returned greedy action sequence
(`self.get_plan()`, read-only abstract scaffolding performing no oracle calls and no
mutation) is not modelled; no claim mentions it. -/
def plan (s : PlannerState E) (state : E) : PlannerState E :=
  let s0 := { s with root := s.root.setState (some state),
                     oracleCalls := 0, trace := [], runCount := 0 }
  if s0.env.n = 0 then { s0 with raised := true }  -- ZeroDivisionError
  else planLoop (ceilDiv s0.cfg.budget s0.env.n) s0

/-- `OptimisticDeterministicPlanner.make_root()`: a fresh parentless node (depth 0,
state bound later by `plan`) and the Leaf Set containing exactly it. -/
def makeRoot (cfg : Cfg) (env : Env E) : PlannerState E :=
  { cfg := cfg, env := env, root := .mk none 0 0 0 0 1 false [], leaves := [[]],
    oracleCalls := 0, raised := false, trace := [], runCount := 0 }

/-- The Leaf-Set paths that survive promoting the child at action `a` to the root,
rebased to the new root (paths into discarded sibling subtrees are dropped: the
source keeps those stale object references in `self.leaves`, but they are unreachable
from the new root — see the module conventions). -/
def retainedLeaves (leaves : List APath) (a : ℕ) : List APath :=
  leaves.filterMap (fun q =>
    match q with
    | [] => none
    | b :: rest => if b = a then some rest else none)

/-- The body of the rescaling loop of `step_by_subtree`:
`leaf.value = (leaf.value - self.root.reward) / gamma` and likewise for
`value_upper_bound` — note that `self.root` is the NEW root (the promoted child),
since the generic promotion ran first. -/
def rescaleLeaf (gamma rootReward : ℚ) (n : DNode E) : DNode E :=
  (n.setValue ((n.value - rootReward) / gamma)).setVub
    ((n.valueUpperBound - rootReward) / gamma)

/-- `OptimisticDeterministicPlanner.step_by_subtree(action)`.  The generic promotion
(`super().step_by_subtree`) is Modelled from the spec: the abstract scaffolding (not
under src/) "discard[s] all sibling subtrees of the chosen action, promote[s] that
child to be the new root" when the action has a child (the no-child reset branch is
outside the claims and leaves the state unchanged here).  Then, in source order:
if the new root has no children, reset the Leaf Set to contain just it; rescale every
leaf by the NEW root's reward and `gamma`; finally `backup_values()` from the new
root. -/
def stepBySubtree (s : PlannerState E) (a : ℕ) : PlannerState E :=
  match s.root.children.get? a with
  | none => s
  | some c =>
    let leaves1 := if c.children.isEmpty then [([] : APath)] else retainedLeaves s.leaves a
    let root1 := leaves1.foldl
      (fun t q => modifyAt t q (rescaleLeaf s.cfg.gamma c.reward)) c
    { s with root := (backupValuesT root1).1, leaves := leaves1 }

mutual
/-- `pb` holds at every node of the tree (used to state tree-wide invariants). -/
def allNodesB (pb : DNode E → Bool) : DNode E → Bool
  | .mk st d r v u k dn cs => pb (.mk st d r v u k dn cs) && allForestB pb cs

/-- `pb` holds at every node of every tree of the list. -/
def allForestB (pb : DNode E → Bool) : List (DNode E) → Bool
  | [] => true
  | c :: cs => allNodesB pb c && allForestB pb cs
end

/-- The per-node invariant `value <= value_upper_bound`. -/
def leB (t : DNode E) : Bool := decide (t.value ≤ t.valueUpperBound)

/-- The per-node dominance property: the node's upper bound is at least each of its
children's upper bounds. -/
def domB (t : DNode E) : Bool :=
  t.children.all (fun c => decide (c.valueUpperBound ≤ t.valueUpperBound))

/-- The per-node property: if the node is childless then `value <= value_upper_bound`. -/
def leafLeB (t : DNode E) : Bool := !t.children.isEmpty || leB t

/-- The non-children fields of a node, bundled (used to state that an operation
preserves a node's scalar fields while possibly rebuilding its subtree). -/
def DNode.fields (t : DNode E) : Option E × ℕ × ℚ × ℚ × ℚ × ℕ × Bool :=
  (t.state, t.depth, t.reward, t.value, t.valueUpperBound, t.count, t.done)

/-- `value` of the node a path points at (junk 0 on an invalid path). -/
def valAt (t : DNode E) (q : APath) : ℚ :=
  match getNode t q with
  | some n => n.value
  | none => 0

/-- `value_upper_bound` of the node a path points at (junk 0 on an invalid path). -/
def vubAtT (t : DNode E) (q : APath) : ℚ :=
  match getNode t q with
  | some n => n.valueUpperBound
  | none => 0

/-- `count` of the node a path points at (junk 0 on an invalid path). -/
def cntAt (t : DNode E) (q : APath) : ℕ :=
  match getNode t q with
  | some n => n.count
  | none => 0

/-- The `value`s of the children of the node a path points at. -/
def childValsAt (t : DNode E) (q : APath) : List ℚ :=
  match getNode t q with
  | some n => n.children.map DNode.value
  | none => []

/-- The `value_upper_bound`s of the children of the node a path points at. -/
def childVubsAt (t : DNode E) (q : APath) : List ℚ :=
  match getNode t q with
  | some n => n.children.map DNode.valueUpperBound
  | none => []

/-- Whether an `update` call returned normally (`true`) or raised (`false`). -/
def isOkE : Except String (DNode E) → Bool
  | .ok _ => true
  | .error _ => false

/-- The successive oracle calls of a replay of an action sequence from a given state:
each call steps the state reached so far with the next action of the sequence. -/
def replayStates (env : Env E) : E → List ℕ → List (E × ℕ)
  | _, [] => []
  | st, act :: rest => (st, act) :: replayStates env (env.step st act).1 rest

/-- A claim-side definition written from the spec's words (for comparison with the
source translation `expandActions`), NOT from the source: in restart mode, expansion
is claimed to "replay the full action sequence from the root down to and including
the new child by re-simulating each ancestor action on a fresh clone".  Given the
root's bound state, the ancestor action sequence leading to the expanded node and
the new child's action, this is the oracle-call trace such a replay would make. -/
def replaySpecTrace (env : Env E) (rootState : E) (ancestorActs : List ℕ) (a : ℕ) :
    List (E × ℕ) :=
  replayStates env rootState (ancestorActs ++ [a])

/-! ### Concrete scenarios used by witnesses and counterexamples -/

/-- A 1-action environment on `ℕ` states: every transition yields reward 1 and never
terminates. -/
def envA : Env ℕ := ⟨1, fun s _ => (s + 1, 1, false)⟩

/-- gamma = 1/2, budget 10, restart off, ignore_terminal on (the default). -/
def cfgA : Cfg := ⟨1/2, 10, false, true⟩

/-- `make_root` for `envA` with the root state bound to 0 (as `plan` would bind it). -/
def sA : PlannerState ℕ :=
  { makeRoot cfgA envA with root := (makeRoot cfgA envA).root.setState (some 0) }

/-- The spec's concrete expansion environment: two actions with immediate rewards
1/2 and 9/10, never terminating. -/
def envB : Env ℕ := ⟨2, fun s a => (s + 1, if a = 0 then 1/2 else 9/10, false)⟩

/-- Variant of `envB` whose second action terminates the episode. -/
def envB2 : Env ℕ := ⟨2, fun s a => (s + 1, if a = 0 then 1/2 else 9/10, a = 1)⟩

/-- gamma = 0.8 = 4/5, budget 10. -/
def cfgB : Cfg := ⟨4/5, 10, false, true⟩

/-- `make_root` for `envB` with the root state bound to 0. -/
def sB : PlannerState ℕ :=
  { makeRoot cfgB envB with root := (makeRoot cfgB envB).root.setState (some 0) }

/-- `make_root` for `envB2` with the root state bound to 0. -/
def sB2 : PlannerState ℕ :=
  { makeRoot cfgB envB2 with root := (makeRoot cfgB envB2).root.setState (some 0) }

/-- Two actions, distinct successor states, rewards 1/2 and 9/10 from the root state
and 1/4 and 3/4 elsewhere, never terminating. -/
def envD : Env ℕ :=
  ⟨2, fun s a => (2 * s + a + 1,
    if s = 0 then (if a = 0 then 1/2 else 9/10) else (if a = 0 then 1/4 else 3/4),
    false)⟩

/-- `make_root` for `envD` (gamma = 4/5, budget 10) with the root state bound to 0. -/
def sD : PlannerState ℕ :=
  { makeRoot cfgB envD with root := (makeRoot cfgB envD).root.setState (some 0) }

/-- Two actions, distinct successor states, rewards 1/10 and 2/10, never
terminating (used for the restart-mode scenarios). -/
def envR : Env ℕ := ⟨2, fun s a => (2 * s + a + 1, (a + 1 : ℚ)/10, false)⟩

/-- gamma = 1/2, budget 100, restart ON. -/
def cfgR : Cfg := ⟨1/2, 100, true, true⟩

/-- gamma = 1/2, budget 3, restart ON (exhausts the budget inside a fake replay). -/
def cfgR3 : Cfg := ⟨1/2, 3, true, true⟩

/-- `make_root` for `envR` under `cfgR` with the root state bound to 0. -/
def sR : PlannerState ℕ :=
  { makeRoot cfgR envR with root := (makeRoot cfgR envR).root.setState (some 0) }

/-- `make_root` for `envR` under `cfgR3` with the root state bound to 0. -/
def sR3 : PlannerState ℕ :=
  { makeRoot cfgR3 envR with root := (makeRoot cfgR3 envR).root.setState (some 0) }

/-- Two actions, reward always 1/2, never terminating, under budget 1: expansion of
the root is cut short by the budget after the first action. -/
def envT : Env ℕ := ⟨2, fun s _ => (s + 1, 1/2, false)⟩

/-- gamma = 1/2, budget 1. -/
def cfgT : Cfg := ⟨1/2, 1, false, true⟩

/-- `make_root` for `envT` with the root state bound to 0. -/
def sT : PlannerState ℕ :=
  { makeRoot cfgT envT with root := (makeRoot cfgT envT).root.setState (some 0) }

/-- A 1-action environment whose reward 2 violates the normalisation range. -/
def envBad : Env ℕ := ⟨1, fun s _ => (s + 1, 2, false)⟩

/-- `make_root` for `envBad` (gamma = 1/2, budget 10) with the root state bound to 0. -/
def sBad : PlannerState ℕ :=
  { makeRoot cfgA envBad with root := (makeRoot cfgA envBad).root.setState (some 0) }

/-- A hand-built mid-run planner state over `envR`/`cfgR` (restart on): the root's
two children have been expanded and updated, 2 oracle calls consumed, run 1 done.
Used as a concrete instance for the restart-mode expansion behaviour. -/
def sW : PlannerState ℕ :=
  { cfg := cfgR, env := envR,
    root := .mk (some 0) 0 0 0 0 1 false
      [.mk (some 1) 1 (1/10) (1/10) (11/10) 1 false [],
       .mk (some 2) 1 (2/10) (2/10) (12/10) 1 false []],
    leaves := [[0], [1]], oracleCalls := 2, raised := false,
    trace := [(0, 0), (0, 1)], runCount := 1 }

/-- A hand-built planner state over `envD`/`cfgB` as left by two runs: the root's
second child (reward 9/10) has two updated grandchildren, and the Leaf Set holds the
first child and the two grandchildren.  Used as a concrete instance for the
subtree-promotion rescaling. -/
def sV : PlannerState ℕ :=
  { cfg := cfgB, env := envD,
    root := .mk (some 0) 0 0 (9/10) 0 1 false
      [.mk (some 1) 1 (1/2) (1/2) (9/2) 1 false [],
       .mk (some 2) 1 (9/10) (9/10) (49/10) 2 false
         [.mk (some 5) 2 (1/4) (11/10) (43/10) 1 false [],
          .mk (some 6) 2 (3/4) (3/2) (47/10) 1 false []]],
    leaves := [[0], [1, 0], [1, 1]], oracleCalls := 4, raised := false,
    trace := [(0, 0), (0, 1), (2, 0), (2, 1)], runCount := 2 }

/-! ### Basic lemmas: `qmax` / `amax` -/

theorem qmax_eq_max (a b : ℚ) : qmax a b = max a b := by
  by_cases h : a ≤ b
  · simp [qmax, h, max_eq_right h]
  · simp [qmax, h, max_eq_left (le_of_not_le h)]

theorem le_qmax_left (a b : ℚ) : a ≤ qmax a b := by
  by_cases h : a ≤ b <;> simp [qmax, h]

theorem le_qmax_right (a b : ℚ) : b ≤ qmax a b := by
  by_cases h : a ≤ b <;> simp [qmax, h]
  exact le_of_not_le h

theorem qmax_le {a b c : ℚ} (h1 : a ≤ c) (h2 : b ≤ c) : qmax a b ≤ c := by
  by_cases h : a ≤ b <;> simp [qmax, h] <;> assumption

theorem le_foldl_qmax_acc (l : List ℚ) (acc : ℚ) : acc ≤ l.foldl qmax acc := by
  induction l generalizing acc with
  | nil => simp
  | cons x xs ih => exact le_trans (le_qmax_left acc x) (ih (qmax acc x))

theorem le_foldl_qmax_mem {l : List ℚ} {x : ℚ} (acc : ℚ) (h : x ∈ l) :
    x ≤ l.foldl qmax acc := by
  induction l generalizing acc with
  | nil => cases h
  | cons y ys ih =>
    rcases List.mem_cons.mp h with rfl | hy
    · exact le_trans (le_qmax_right acc x) (le_foldl_qmax_acc ys (qmax acc x))
    · exact ih (qmax acc y) hy

theorem foldl_qmax_le {l : List ℚ} {acc c : ℚ} (h : acc ≤ c) (h2 : ∀ x ∈ l, x ≤ c) :
    l.foldl qmax acc ≤ c := by
  induction l generalizing acc with
  | nil => simpa using h
  | cons x xs ih =>
    exact ih (qmax_le h (h2 x (List.mem_cons_self x xs))) (fun y hy => h2 y (List.mem_cons_of_mem x hy))

theorem le_amax_of_mem {l : List ℚ} {x : ℚ} (h : x ∈ l) : x ≤ amax l := by
  match l with
  | [] => cases h
  | y :: ys =>
    rcases List.mem_cons.mp h with rfl | hy
    · exact le_foldl_qmax_acc ys x
    · exact le_foldl_qmax_mem y hy

theorem amax_le {l : List ℚ} {c : ℚ} (hne : l ≠ []) (h : ∀ x ∈ l, x ≤ c) :
    amax l ≤ c := by
  match l with
  | [] => exact absurd rfl hne
  | y :: ys =>
    exact foldl_qmax_le (h y (List.mem_cons_self y ys)) (fun x hx => h x (List.mem_cons_of_mem y hx))

/-! ### Basic lemmas: node accessors and setters -/

namespace DNode

variable {E : Type}

@[simp] theorem state_mk (st : Option E) (d r v u k dn cs) :
    (mk st d r v u k dn cs).state = st := rfl
@[simp] theorem depth_mk (st : Option E) (d r v u k dn cs) :
    (mk st d r v u k dn cs).depth = d := rfl
@[simp] theorem reward_mk (st : Option E) (d r v u k dn cs) :
    (mk st d r v u k dn cs).reward = r := rfl
@[simp] theorem value_mk (st : Option E) (d r v u k dn cs) :
    (mk st d r v u k dn cs).value = v := rfl
@[simp] theorem vub_mk (st : Option E) (d r v u k dn cs) :
    (mk st d r v u k dn cs).valueUpperBound = u := rfl
@[simp] theorem count_mk (st : Option E) (d r v u k dn cs) :
    (mk st d r v u k dn cs).count = k := rfl
@[simp] theorem done_mk (st : Option E) (d r v u k dn cs) :
    (mk st d r v u k dn cs).done = dn := rfl
@[simp] theorem children_mk (st : Option E) (d r v u k dn cs) :
    (mk st d r v u k dn cs).children = cs := rfl

@[simp] theorem setValue_def (t : DNode E) (v) : t.setValue v =
    mk t.state t.depth t.reward v t.valueUpperBound t.count t.done t.children := by
  cases t; rfl
@[simp] theorem setVub_def (t : DNode E) (u) : t.setVub u =
    mk t.state t.depth t.reward t.value u t.count t.done t.children := by
  cases t; rfl
@[simp] theorem setReward_def (t : DNode E) (r) : t.setReward r =
    mk t.state t.depth r t.value t.valueUpperBound t.count t.done t.children := by
  cases t; rfl
@[simp] theorem setDone_def (t : DNode E) (dn) : t.setDone dn =
    mk t.state t.depth t.reward t.value t.valueUpperBound t.count dn t.children := by
  cases t; rfl
@[simp] theorem setState_def (t : DNode E) (o) : t.setState o =
    mk o t.depth t.reward t.value t.valueUpperBound t.count t.done t.children := by
  cases t; rfl
@[simp] theorem incCount_def (t : DNode E) : t.incCount =
    mk t.state t.depth t.reward t.value t.valueUpperBound (t.count + 1) t.done t.children := by
  cases t; rfl
@[simp] theorem setChildren_def (t : DNode E) (cs) : t.setChildren cs =
    mk t.state t.depth t.reward t.value t.valueUpperBound t.count t.done cs := by
  cases t; rfl

end DNode

/-- Strong induction over `DNode` (children are structurally smaller). -/
theorem DNode.indOn {E : Type} {motive : DNode E → Prop}
    (h : ∀ st d r v u k dn cs, (∀ c ∈ cs, motive c) → motive (DNode.mk st d r v u k dn cs)) :
    ∀ t, motive t
  | .mk st d r v u k dn cs =>
    h st d r v u k dn cs (fun c hc => DNode.indOn h c)
termination_by t => sizeOf t
decreasing_by
  have h1 := List.sizeOf_lt_of_mem hc
  simp only [DNode.mk.sizeOf_spec]
  omega

/-! ### Lemmas: `getNode` and `modifyAt` -/

theorem getNode_nil (t : DNode E) : getNode t [] = some t := rfl

theorem getNode_cons (t : DNode E) (a : ℕ) (rest : APath) :
    getNode t (a :: rest) =
      match t.children.get? a with
      | none => none
      | some c => getNode c rest := rfl

theorem getNode_append (t : DNode E) (p q : APath) :
    getNode t (p ++ q) = (getNode t p).bind (fun n => getNode n q) := by
  induction p generalizing t with
  | nil => simp [getNode]
  | cons a rest ih =>
    simp only [List.cons_append, getNode_cons]
    cases t.children.get? a with
    | none => rfl
    | some c => exact ih c

theorem getNode_modifyAt_self {t n : DNode E} {p : APath}
    (f : DNode E → DNode E) (h : getNode t p = some n) :
    getNode (modifyAt t p f) p = some (f n) := by
  induction p generalizing t with
  | nil =>
    simp only [getNode_nil, Option.some.injEq] at h
    subst h
    rfl
  | cons a rest ih =>
    rw [getNode_cons] at h
    cases hg : t.children.get? a with
    | none => rw [hg] at h; cases h
    | some c =>
      rw [hg] at h
      have hlt : a < t.children.length := by
        rcases List.get?_eq_some.mp hg with ⟨hl, _⟩
        exact hl
      simp only [modifyAt, hg, DNode.setChildren_def, getNode_cons, DNode.children_mk]
      rw [List.get?_set_eq_of_lt _ hlt]
      exact ih h

theorem getNode_of_children_eq {t t2 : DNode E} (h : t2.children = t.children) :
    ∀ {q : APath}, q ≠ [] → getNode t2 q = getNode t q := by
  intro q hq
  match q with
  | [] => exact absurd rfl hq
  | b :: qr => rw [getNode_cons, getNode_cons, h]

theorem fields_getNode_modifyAt {f : DNode E → DNode E}
    (hf : ∀ u, (f u).children = u.children) :
    ∀ {p : APath} (t : DNode E) {q : APath}, q ≠ p →
      (getNode (modifyAt t p f) q).map DNode.fields = (getNode t q).map DNode.fields := by
  intro p
  induction p with
  | nil =>
    intro t q hq
    show (getNode (f t) q).map DNode.fields = (getNode t q).map DNode.fields
    rw [getNode_of_children_eq (hf t) hq]
  | cons a pr ih =>
    intro t q hq
    show (getNode (modifyAt t (a :: pr) f) q).map DNode.fields = _
    rw [modifyAt]
    cases hg : t.children.get? a with
    | none => rfl
    | some c =>
      have hlt : a < t.children.length := by
        rcases List.get?_eq_some.mp hg with ⟨hl, _⟩
        exact hl
      match q with
      | [] =>
        simp [getNode_nil, DNode.fields]
      | b :: qr =>
        simp only [getNode_cons, DNode.setChildren_def, DNode.children_mk]
        by_cases hba : b = a
        · subst hba
          rw [List.get?_set_eq_of_lt _ hlt, hg]
          have hqr : qr ≠ pr := by
            intro hcon; exact hq (by rw [hcon])
          exact ih c hqr
        · rw [List.get?_set_ne _ _ (fun hcon => hba hcon.symm)]

/-! ### Lemmas: `backupValuesT` -/

theorem backupValuesL_eq_map (cs : List (DNode E)) :
    backupValuesL cs = cs.map backupValuesT := by
  induction cs with
  | nil => rfl
  | cons c cs ih => rw [backupValuesL, ih, List.map_cons]

theorem backupValuesT_pair (t : DNode E) :
    (backupValuesT t).2 = ((backupValuesT t).1.value, (backupValuesT t).1.valueUpperBound) := by
  cases t with
  | mk st d r v u k dn cs =>
    cases cs with
    | nil => rfl
    | cons c0 cs2 => rfl

theorem backupValuesT_childless (t : DNode E) :
    t.children = [] → backupValuesT t = (t, t.value, t.valueUpperBound) := by
  cases t with
  | mk st d r v u k dn cs =>
    intro h
    simp only [DNode.children_mk] at h
    subst h
    rfl

theorem getNode_backupValuesT {q : APath} :
    ∀ {t n : DNode E}, getNode t q = some n → n.children = [] →
      getNode (backupValuesT t).1 q = some n := by
  induction q with
  | nil =>
    intro t n h hleaf
    simp only [getNode_nil, Option.some.injEq] at h
    subst h
    rw [backupValuesT_childless t hleaf]
    rfl
  | cons b qr ih =>
    intro t n h hleaf
    cases t with
    | mk st d r v u k dn cs =>
      rw [getNode_cons] at h
      simp only [DNode.children_mk] at h
      cases hg : cs.get? b with
      | none => rw [hg] at h; cases h
      | some c =>
        rw [hg] at h
        cases cs with
        | nil => simp at hg
        | cons c0 cs2 =>
          show getNode (DNode.mk st d r _ _ k dn
            ((backupValuesL (c0 :: cs2)).map (fun b => b.1))) (b :: qr) = some n
          rw [getNode_cons]
          simp only [DNode.children_mk, backupValuesL_eq_map, List.map_map]
          rw [List.get?_map, hg]
          exact ih h hleaf

theorem backupValuesT_of_ne_nil {cs : List (DNode E)} (h : cs ≠ [])
    (st : Option E) (d : ℕ) (r v u : ℚ) (k : ℕ) (dn : Bool) :
    backupValuesT (DNode.mk st d r v u k dn cs) =
      (DNode.mk st d r (amax ((cs.map backupValuesT).map (fun b => b.2.1)))
        (amax ((cs.map backupValuesT).map (fun b => b.2.2))) k dn
        ((cs.map backupValuesT).map (fun b => b.1)),
       amax ((cs.map backupValuesT).map (fun b => b.2.1)),
       amax ((cs.map backupValuesT).map (fun b => b.2.2))) := by
  match cs with
  | [] => exact absurd rfl h
  | c0 :: cs2 => simp [backupValuesT, backupValuesL_eq_map]

/-- Idempotence of the full-subtree backup, at the level of the whole result
(tree and returned pair). -/
theorem backupValuesT_idem (t : DNode E) :
    backupValuesT ((backupValuesT t).1) = backupValuesT t := by
  induction t using DNode.indOn with
  | h st d r v u k dn cs ih =>
    cases cs with
    | nil => rfl
    | cons c0 cs2 =>
      have h1 : (c0 :: cs2 : List (DNode E)) ≠ [] := by simp
      rw [backupValuesT_of_ne_nil h1]
      have h2 : (((c0 :: cs2).map backupValuesT).map (fun b => b.1)) ≠ [] := by simp
      rw [backupValuesT_of_ne_nil h2]
      have h3 : ((((c0 :: cs2).map backupValuesT).map (fun b => b.1)).map backupValuesT)
          = (c0 :: cs2).map backupValuesT := by
        rw [List.map_map, List.map_map]
        exact List.map_congr_left (fun c hc => ih c hc)
      rw [h3]

/-! ### Lemmas: tree-wide predicates -/

theorem allForestB_eq_all (pb : DNode E → Bool) (cs : List (DNode E)) :
    allForestB pb cs = cs.all (allNodesB pb) := by
  induction cs with
  | nil => rfl
  | cons c cs ih => rw [allForestB, ih, List.all_cons]

theorem allNodesB_true_iff (pb : DNode E → Bool) (t : DNode E) :
    allNodesB pb t = true ↔ (pb t = true ∧ ∀ c ∈ t.children, allNodesB pb c = true) := by
  cases t with
  | mk st d r v u k dn cs =>
    rw [allNodesB, allForestB_eq_all]
    simp [List.all_eq_true]

theorem leB_true_iff (t : DNode E) : leB t = true ↔ t.value ≤ t.valueUpperBound := by
  simp [leB]

theorem domB_true_iff (t : DNode E) :
    domB t = true ↔ ∀ c ∈ t.children, c.valueUpperBound ≤ t.valueUpperBound := by
  simp [domB, List.all_eq_true]

/-! ### Lemmas: `update` establishes the local invariant -/

theorem update_ok_fields {gamma pv : ℚ} {nd nd2 : DNode E} {r : ℚ} {dn : Bool}
    (h : update gamma pv nd r dn = .ok nd2) :
    (0 ≤ r ∧ r ≤ 1) ∧
    nd2 = DNode.mk nd.state nd.depth r (pv + gamma ^ (nd.depth - 1) * r)
      ((pv + gamma ^ (nd.depth - 1) * r) +
        (if dn then 0 else 1) * gamma ^ nd.depth / (1 - gamma)) nd.count dn nd.children := by
  unfold update at h
  split at h
  · cases h
  · next hr =>
    refine ⟨not_not.mp (fun hcon => hr hcon), ?_⟩
    simp only [Option.some.injEq, Except.ok.injEq] at h
    subst h
    simp

theorem update_le {gamma pv : ℚ} (h0 : 0 < gamma) (h1 : gamma < 1)
    {nd nd2 : DNode E} {r : ℚ} {dn : Bool} (h : update gamma pv nd r dn = .ok nd2) :
    nd2.value ≤ nd2.valueUpperBound := by
  obtain ⟨-, h2⟩ := update_ok_fields h
  subst h2
  simp only [DNode.value_mk, DNode.vub_mk, le_add_iff_nonneg_right]
  apply div_nonneg
  · cases dn with
    | false =>
      simp only [if_neg Bool.false_ne_true, one_mul]
      exact pow_nonneg h0.le _
    | true => simp
  · linarith

/-! ### Lemmas: `backup_values` preserves the invariant -/

theorem backupValues_le :
    ∀ t : DNode E, allNodesB leafLeB t = true →
      allNodesB leB (backupValuesT t).1 = true ∧
      (backupValuesT t).2.1 ≤ (backupValuesT t).2.2 := by
  intro t
  induction t using DNode.indOn with
  | h st d r v u k dn cs ih =>
    intro hyp
    cases cs with
    | nil =>
      have hleaf : leafLeB (DNode.mk st d r v u k dn []) = true :=
        ((allNodesB_true_iff _ _).mp hyp).1
      have hle : v ≤ u := by
        simpa [leafLeB, leB] using hleaf
      refine ⟨?_, hle⟩
      rw [backupValuesT]
      rw [allNodesB_true_iff]
      exact ⟨by simpa [leB], by simp⟩
    | cons c0 cs2 =>
      have hch : ∀ c ∈ c0 :: cs2, allNodesB leafLeB c = true := by
        have := (allNodesB_true_iff _ _).mp hyp
        simpa using this.2
      have hIH : ∀ c ∈ c0 :: cs2,
          allNodesB leB (backupValuesT c).1 = true ∧
          (backupValuesT c).2.1 ≤ (backupValuesT c).2.2 :=
        fun c hc => ih c hc (hch c hc)
      rw [backupValuesT_of_ne_nil (by simp)]
      have hne : ((c0 :: cs2).map backupValuesT).map (fun b => b.2.1) ≠ [] := by simp
      have hmaxle :
          amax (((c0 :: cs2).map backupValuesT).map (fun b => b.2.1)) ≤
          amax (((c0 :: cs2).map backupValuesT).map (fun b => b.2.2)) := by
        apply amax_le hne
        intro x hx
        rcases List.mem_map.mp hx with ⟨b, hb, rfl⟩
        rcases List.mem_map.mp hb with ⟨c, hc, rfl⟩
        calc (backupValuesT c).2.1 ≤ (backupValuesT c).2.2 := (hIH c hc).2
          _ ≤ _ := le_amax_of_mem (by
              exact List.mem_map.mpr ⟨backupValuesT c, List.mem_map.mpr ⟨c, hc, rfl⟩, rfl⟩)
      refine ⟨?_, hmaxle⟩
      rw [allNodesB_true_iff]
      constructor
      · simpa [leB] using hmaxle
      · intro x hx
        simp only [DNode.children_mk] at hx
        rcases List.mem_map.mp hx with ⟨b, hb, rfl⟩
        rcases List.mem_map.mp hb with ⟨c, hc, rfl⟩
        exact (hIH c hc).1

/-! ### Lemmas: `backup_to_root` preserves the invariant under dominance -/

theorem backupToRootT_le :
    ∀ (p : APath) (t : DNode E), allNodesB leB t = true → allNodesB domB t = true →
      allNodesB leB (backupToRootT t p) = true ∧
      (backupToRootT t p).value ≤ t.valueUpperBound ∧
      (backupToRootT t p).valueUpperBound = t.valueUpperBound := by
  intro p
  induction p with
  | nil =>
    intro t hle hdom
    refine ⟨hle, ?_, rfl⟩
    exact (leB_true_iff t).mp ((allNodesB_true_iff _ _).mp hle).1
  | cons a rest ih =>
    intro t hle hdom
    have hroot_le : t.value ≤ t.valueUpperBound :=
      (leB_true_iff t).mp ((allNodesB_true_iff _ _).mp hle).1
    cases hg : t.children.get? a with
    | none =>
      rw [backupToRootT, hg]
      exact ⟨hle, hroot_le, rfl⟩
    | some c =>
      rw [backupToRootT, hg]
      have hcmem : c ∈ t.children := List.get?_mem hg
      have hlt : a < t.children.length := by
        rcases List.get?_eq_some.mp hg with ⟨hl, _⟩
        exact hl
      have hch_le : ∀ x ∈ t.children, allNodesB leB x = true :=
        ((allNodesB_true_iff _ _).mp hle).2
      have hch_dom : ∀ x ∈ t.children, allNodesB domB x = true :=
        ((allNodesB_true_iff _ _).mp hdom).2
      have hdom_root : ∀ x ∈ t.children, x.valueUpperBound ≤ t.valueUpperBound :=
        (domB_true_iff t).mp ((allNodesB_true_iff _ _).mp hdom).1
      obtain ⟨ihle, ihval, ihvub⟩ :=
        ih c (hch_le c hcmem) (hch_dom c hcmem)
      set cRec := backupToRootT c rest with hcRec
      set ch1 := t.children.set a cRec with hch1
      set newVal := amax (ch1.map DNode.value) with hnewVal
      set newVub := amax (ch1.map DNode.valueUpperBound) with hnewVub
      have hcRec_mem : cRec ∈ ch1 := by
        apply List.get?_mem (n := a)
        rw [hch1]
        rw [List.get?_set_eq_of_lt _ hlt]
      have hch1_ne : ch1 ≠ [] := List.ne_nil_of_mem hcRec_mem
      have hvub_bound : ∀ x ∈ ch1, x.valueUpperBound ≤ t.valueUpperBound := by
        intro x hx
        rcases List.mem_or_eq_of_mem_set hx with hx2 | rfl
        · exact hdom_root x hx2
        · rw [ihvub]; exact hdom_root c hcmem
      have hval_bound : ∀ x ∈ ch1, x.value ≤ t.valueUpperBound := by
        intro x hx
        rcases List.mem_or_eq_of_mem_set hx with hx2 | rfl
        · exact le_trans ((leB_true_iff x).mp ((allNodesB_true_iff _ _).mp (hch_le x hx2)).1)
            (hdom_root x hx2)
        · exact le_trans ihval (hdom_root c hcmem)
      have hnewVal_le : newVal ≤ t.valueUpperBound := by
        rw [hnewVal]
        apply amax_le (by simpa using hch1_ne)
        intro x hx
        rcases List.mem_map.mp hx with ⟨y, hy, rfl⟩
        exact hval_bound y hy
      have hcvub_le_newVub : c.valueUpperBound ≤ newVub := by
        rw [hnewVub, ← ihvub]
        exact le_amax_of_mem (List.mem_map.mpr ⟨cRec, hcRec_mem, rfl⟩)
      have hY_le : allNodesB leB ((cRec.setVub newVub).incCount) = true := by
        rw [allNodesB_true_iff]
        constructor
        · rw [leB_true_iff]
          simp only [DNode.setVub_def, DNode.incCount_def, DNode.value_mk, DNode.vub_mk]
          exact le_trans ihval hcvub_le_newVub
        · intro x hx
          simp only [DNode.setVub_def, DNode.incCount_def, DNode.children_mk] at hx
          exact ((allNodesB_true_iff _ _).mp ihle).2 x hx
      refine ⟨?_, ?_, ?_⟩
      · rw [allNodesB_true_iff]
        constructor
        · rw [leB_true_iff]
          simp only [DNode.setChildren_def, DNode.setValue_def, DNode.value_mk, DNode.vub_mk]
          exact hnewVal_le
        · intro x hx
          simp only [DNode.setChildren_def, DNode.setValue_def, DNode.children_mk] at hx
          rw [List.set_set] at hx
          rcases List.mem_or_eq_of_mem_set hx with hx2 | rfl
          · exact hch_le x hx2
          · exact hY_le
      · simp only [DNode.setChildren_def, DNode.setValue_def, DNode.value_mk]
        exact hnewVal_le
      · simp only [DNode.setChildren_def, DNode.setValue_def, DNode.vub_mk]

/-! ### Lemmas: projections of `getNode` -/

theorem valAt_of_getNode {t n : DNode E} {q : APath} (h : getNode t q = some n) :
    valAt t q = n.value := by unfold valAt; rw [h]

theorem vubAtT_of_getNode {t n : DNode E} {q : APath} (h : getNode t q = some n) :
    vubAtT t q = n.valueUpperBound := by unfold vubAtT; rw [h]

theorem cntAt_of_getNode {t n : DNode E} {q : APath} (h : getNode t q = some n) :
    cntAt t q = n.count := by unfold cntAt; rw [h]

theorem childValsAt_of_getNode {t n : DNode E} {q : APath} (h : getNode t q = some n) :
    childValsAt t q = n.children.map DNode.value := by unfold childValsAt; rw [h]

theorem childVubsAt_of_getNode {t n : DNode E} {q : APath} (h : getNode t q = some n) :
    childVubsAt t q = n.children.map DNode.valueUpperBound := by unfold childVubsAt; rw [h]

theorem list_set_same {α : Type} : ∀ (l : List α) (n : ℕ) (x : α),
    l.get? n = some x → l.set n x = l := by
  intro l
  induction l with
  | nil => intro n x h; cases h
  | cons y ys ih =>
    intro n x h
    cases n with
    | zero =>
      simp only [List.get?] at h
      cases h
      rfl
    | succ m =>
      simp only [List.get?] at h
      rw [List.set]
      rw [ih m x h]

/-! ### Lemmas: structure of `backupToRootT` -/

theorem backupToRootT_cons {t c : DNode E} {a : ℕ} {rest : APath}
    (hg : t.children.get? a = some c) :
    backupToRootT t (a :: rest) =
      (t.setChildren ((t.children.set a (backupToRootT c rest)).set a
        (((backupToRootT c rest).setVub
          (amax ((t.children.set a (backupToRootT c rest)).map DNode.valueUpperBound))).incCount))).setValue
        (amax ((t.children.set a (backupToRootT c rest)).map DNode.value)) := by
  rw [backupToRootT, hg]

theorem btr_root_vub (t : DNode E) (p : APath) :
    (backupToRootT t p).valueUpperBound = t.valueUpperBound := by
  cases p with
  | nil => rfl
  | cons a rest =>
    cases hg : t.children.get? a with
    | none => rw [backupToRootT, hg]
    | some c => rw [backupToRootT_cons hg]; simp

theorem btr_root_count (t : DNode E) (p : APath) :
    (backupToRootT t p).count = t.count := by
  cases p with
  | nil => rfl
  | cons a rest =>
    cases hg : t.children.get? a with
    | none => rw [backupToRootT, hg]
    | some c => rw [backupToRootT_cons hg]; simp

theorem btr_getNode_child {t c : DNode E} {a : ℕ} {rest : APath}
    (hg : t.children.get? a = some c) :
    getNode (backupToRootT t (a :: rest)) [a] = some
      (((backupToRootT c rest).setVub
        (amax ((t.children.set a (backupToRootT c rest)).map DNode.valueUpperBound))).incCount) := by
  have hlt : a < t.children.length := by
    rcases List.get?_eq_some.mp hg with ⟨hl, _⟩
    exact hl
  rw [backupToRootT_cons hg, getNode_cons]
  simp only [DNode.setChildren_def, DNode.setValue_def, DNode.children_mk, List.set_set]
  rw [List.get?_set_eq_of_lt _ (by simpa using hlt)]
  rfl

theorem btr_getNode_deep {t c : DNode E} {a : ℕ} {z : APath}
    (hg : t.children.get? a = some c) {w : APath} (hw : w ≠ []) :
    getNode (backupToRootT t (a :: z)) (a :: w) =
      getNode (backupToRootT c z) w := by
  have hlt : a < t.children.length := by
    rcases List.get?_eq_some.mp hg with ⟨hl, _⟩
    exact hl
  rw [backupToRootT_cons hg, getNode_cons]
  simp only [DNode.setChildren_def, DNode.setValue_def, DNode.children_mk, List.set_set]
  rw [List.get?_set_eq_of_lt _ (by simpa using hlt)]
  exact getNode_of_children_eq (by simp) hw

theorem btr_valAt_self :
    ∀ (p : APath) (t : DNode E), (getNode t p).isSome →
      valAt (backupToRootT t p) p = valAt t p := by
  intro p
  induction p with
  | nil => intro t h; rfl
  | cons a rest ih =>
    intro t h
    rw [getNode_cons] at h
    cases hg : t.children.get? a with
    | none => rw [hg] at h; cases h
    | some c =>
      rw [hg] at h
      cases hr : rest with
      | nil =>
        rw [valAt_of_getNode (btr_getNode_child hg)]
        rw [valAt_of_getNode (show getNode t [a] = some c by rw [getNode_cons, hg]; rfl)]
        simp [backupToRootT]
      | cons b w =>
        rw [hr] at h ih
        have h2 : getNode (backupToRootT t (a :: b :: w)) (a :: b :: w) =
            getNode (backupToRootT c (b :: w)) (b :: w) := btr_getNode_deep hg (by simp)
        have h3 : getNode t (a :: b :: w) = getNode c (b :: w) := by
          rw [getNode_cons, hg]
        unfold valAt
        rw [h2, h3]
        have h4 := ih c h
        unfold valAt at h4
        exact h4

theorem btr_vub_split :
    ∀ (q : APath) (b : ℕ) (q2 : APath) (t : DNode E), (getNode t (q ++ b :: q2)).isSome →
      vubAtT (backupToRootT t (q ++ b :: q2)) (q ++ [b]) = amax (childVubsAt t q) := by
  intro q
  induction q with
  | nil =>
    intro b q2 t h
    simp only [List.nil_append] at h ⊢
    cases hg : t.children.get? b with
    | none =>
      rw [getNode_cons, hg] at h
      cases h
    | some c =>
      rw [vubAtT_of_getNode (btr_getNode_child hg)]
      simp only [DNode.setVub_def, DNode.incCount_def, DNode.vub_mk]
      rw [childVubsAt_of_getNode (getNode_nil t)]
      rw [List.map_set, btr_root_vub]
      have hside : (t.children.map DNode.valueUpperBound).get? b = some c.valueUpperBound := by
        rw [List.get?_map, hg]
        rfl
      rw [list_set_same _ _ _ hside]
  | cons a q3 ih =>
    intro b q2 t h
    rw [List.cons_append] at h ⊢
    cases hg : t.children.get? a with
    | none =>
      rw [getNode_cons, hg] at h
      cases h
    | some c =>
      have hh : (getNode c (q3 ++ b :: q2)).isSome := by
        rw [getNode_cons, hg] at h
        exact h
      have h2 := btr_getNode_deep (z := q3 ++ b :: q2) (w := q3 ++ [b]) hg (by simp)
      have h4 : getNode t (a :: q3) = getNode c q3 := by
        rw [getNode_cons, hg]
      have h3 : childVubsAt t (a :: q3) = childVubsAt c q3 := by
        unfold childVubsAt
        rw [h4]
      have h5 := ih b q2 c hh
      unfold vubAtT at h5 ⊢
      rw [show (a :: q3) ++ [b] = a :: (q3 ++ [b]) from rfl, h2, h3]
      exact h5

theorem btr_cnt_split :
    ∀ (q : APath) (b : ℕ) (q2 : APath) (t : DNode E), (getNode t (q ++ b :: q2)).isSome →
      cntAt (backupToRootT t (q ++ b :: q2)) (q ++ [b]) = cntAt t (q ++ [b]) + 1 := by
  intro q
  induction q with
  | nil =>
    intro b q2 t h
    simp only [List.nil_append] at h ⊢
    cases hg : t.children.get? b with
    | none =>
      rw [getNode_cons, hg] at h
      cases h
    | some c =>
      rw [cntAt_of_getNode (btr_getNode_child hg)]
      simp only [DNode.setVub_def, DNode.incCount_def, DNode.count_mk]
      rw [btr_root_count]
      rw [cntAt_of_getNode (show getNode t [b] = some c by rw [getNode_cons, hg]; rfl)]
  | cons a q3 ih =>
    intro b q2 t h
    rw [List.cons_append] at h ⊢
    cases hg : t.children.get? a with
    | none =>
      rw [getNode_cons, hg] at h
      cases h
    | some c =>
      have hh : (getNode c (q3 ++ b :: q2)).isSome := by
        rw [getNode_cons, hg] at h
        exact h
      have h2 := btr_getNode_deep (z := q3 ++ b :: q2) (w := q3 ++ [b]) hg (by simp)
      have h4 : getNode t (a :: (q3 ++ [b])) = getNode c (q3 ++ [b]) := by
        rw [getNode_cons, hg]
      have h5 := ih b q2 c hh
      unfold cntAt at h5 ⊢
      rw [show (a :: q3) ++ [b] = a :: (q3 ++ [b]) from rfl, h2, h4]
      exact h5

theorem btr_val_split :
    ∀ (q : APath) (b : ℕ) (q2 : APath) (t : DNode E), (getNode t (q ++ b :: q2)).isSome →
      valAt (backupToRootT t (q ++ b :: q2)) q =
        amax (childValsAt (backupToRootT t (q ++ b :: q2)) q) := by
  intro q
  induction q with
  | nil =>
    intro b q2 t h
    simp only [List.nil_append] at h ⊢
    cases hg : t.children.get? b with
    | none =>
      rw [getNode_cons, hg] at h
      cases h
    | some c =>
      rw [valAt_of_getNode (getNode_nil _), childValsAt_of_getNode (getNode_nil _)]
      rw [backupToRootT_cons hg]
      simp only [DNode.setChildren_def, DNode.setValue_def, DNode.value_mk,
        DNode.children_mk, List.set_set, List.map_set]
      simp only [DNode.setVub_def, DNode.incCount_def, DNode.value_mk]
  | cons a q3 ih =>
    intro b q2 t h
    rw [List.cons_append] at h ⊢
    cases hg : t.children.get? a with
    | none =>
      rw [getNode_cons, hg] at h
      cases h
    | some c =>
      have hh : (getNode c (q3 ++ b :: q2)).isSome := by
        rw [getNode_cons, hg] at h
        exact h
      have h5 := ih b q2 c hh
      cases hq3 : q3 with
      | nil =>
        subst hq3
        rw [valAt_of_getNode (btr_getNode_child hg),
          childValsAt_of_getNode (btr_getNode_child hg)]
        simp only [DNode.setVub_def, DNode.incCount_def, DNode.value_mk, DNode.children_mk]
        rw [valAt_of_getNode (getNode_nil _), childValsAt_of_getNode (getNode_nil _)] at h5
        exact h5
      | cons g gs =>
        subst hq3
        have h2 := btr_getNode_deep (z := (g :: gs) ++ b :: q2) (w := g :: gs) hg (by simp)
        unfold valAt childValsAt at h5 ⊢
        rw [h2]
        exact h5

/-! ### Lemmas: the oracle wrapper and the fake-restart loop -/

theorem stepState_eq (s : PlannerState E) (st : E) (a : ℕ) :
    stepState s st a =
      ({ s with oracleCalls := s.oracleCalls + 1, trace := s.trace ++ [(st, a)] },
        (s.env.step st a).1, (s.env.step st a).2.1, (s.env.step st a).2.2) := rfl

theorem restartLoop_eq :
    ∀ (k : ℕ) (s : PlannerState E) (st : E) (a : ℕ), s.oracleCalls < s.cfg.budget →
      (s.cfg.budget ≤ s.oracleCalls + k →
        restartLoop s st a k =
          ({ s with oracleCalls := s.cfg.budget,
                    trace := s.trace ++ List.replicate (s.cfg.budget - s.oracleCalls) (st, a) },
            true))
      ∧ (s.oracleCalls + k < s.cfg.budget →
        restartLoop s st a k =
          ({ s with oracleCalls := s.oracleCalls + k,
                    trace := s.trace ++ List.replicate k (st, a) }, false)) := by
  intro k
  induction k with
  | zero =>
    intro s st a hlt
    constructor
    · intro hcon
      omega
    · intro h2
      simp [restartLoop]
  | succ m ih =>
    intro s st a hlt
    rw [restartLoop, stepState_eq]
    have hproj : ({ s with oracleCalls := s.oracleCalls + 1, trace := s.trace ++ [(st, a)] } : PlannerState E).oracleCalls = s.oracleCalls + 1 := rfl
    have hbudproj : ({ s with oracleCalls := s.oracleCalls + 1, trace := s.trace ++ [(st, a)] } : PlannerState E).cfg = s.cfg := rfl
    constructor
    · intro hbud
      by_cases hstop : s.cfg.budget ≤ s.oracleCalls + 1
      · rw [if_pos (by rw [hproj, hbudproj]; exact hstop)]
        have hrep : s.cfg.budget - s.oracleCalls = 1 := by omega
        have hb1 : s.oracleCalls + 1 = s.cfg.budget := by omega
        rw [hrep]
        simp only [List.replicate_succ, List.replicate_zero]
        rw [hb1]
      · rw [if_neg (by rw [hproj, hbudproj]; exact hstop)]
        have ih2 := (ih ({ s with oracleCalls := s.oracleCalls + 1, trace := s.trace ++ [(st, a)] }) st a (by rw [hproj, hbudproj]; omega)).1
        rw [hproj, hbudproj] at ih2
        rw [ih2 (by omega)]
        have hrep : s.cfg.budget - s.oracleCalls = (s.cfg.budget - (s.oracleCalls + 1)) + 1 := by omega
        rw [hrep, List.replicate_succ, List.append_assoc]
        rfl
    · intro hbud
      rw [if_neg (by rw [hproj, hbudproj]; omega)]
      have ih2 := (ih ({ s with oracleCalls := s.oracleCalls + 1, trace := s.trace ++ [(st, a)] }) st a (by rw [hproj, hbudproj]; omega)).2
      rw [hproj, hbudproj] at ih2
      rw [ih2 (by omega)]
      rw [List.replicate_succ, List.append_assoc]
      have harith : s.oracleCalls + 1 + m = s.oracleCalls + (m + 1) := by omega
      rw [harith]
      rfl

theorem restartLoop_frame :
    ∀ (k : ℕ) (s : PlannerState E) (st : E) (a : ℕ),
      (restartLoop s st a k).1.cfg = s.cfg ∧
      (restartLoop s st a k).1.env = s.env ∧
      (restartLoop s st a k).1.leaves = s.leaves ∧
      (restartLoop s st a k).1.root = s.root ∧
      (restartLoop s st a k).1.raised = s.raised ∧
      (restartLoop s st a k).1.runCount = s.runCount ∧
      s.oracleCalls ≤ (restartLoop s st a k).1.oracleCalls := by
  intro k
  induction k with
  | zero => intro s st a; exact ⟨rfl, rfl, rfl, rfl, rfl, rfl, le_refl _⟩
  | succ m ih =>
    intro s st a
    rw [restartLoop, stepState_eq]
    simp only []
    by_cases hstop : s.cfg.budget ≤ s.oracleCalls + 1
    · rw [if_pos hstop]
      exact ⟨rfl, rfl, rfl, rfl, rfl, rfl, Nat.le_succ _⟩
    · rw [if_neg hstop]
      have ih2 := ih ({ s with oracleCalls := s.oracleCalls + 1, trace := s.trace ++ [(st, a)] }) st a
      refine ⟨ih2.1, ih2.2.1, ih2.2.2.1, ih2.2.2.2.1, ih2.2.2.2.2.1, ih2.2.2.2.2.2.1, ?_⟩
      have h7 := ih2.2.2.2.2.2.2
      have h8 : ({ s with oracleCalls := s.oracleCalls + 1, trace := s.trace ++ [(st, a)] } : PlannerState E).oracleCalls = s.oracleCalls + 1 := rfl
      rw [h8] at h7
      omega

theorem restartLoop_budget :
    ∀ (k : ℕ) (s : PlannerState E) (st : E) (a : ℕ), s.oracleCalls < s.cfg.budget →
      ((restartLoop s st a k).2 = true →
        (restartLoop s st a k).1.oracleCalls ≤ s.cfg.budget) ∧
      ((restartLoop s st a k).2 = false →
        (restartLoop s st a k).1.oracleCalls < s.cfg.budget) := by
  intro k s st a hlt
  by_cases hbud : s.cfg.budget ≤ s.oracleCalls + k
  · rw [((restartLoop_eq k s st a hlt).1 hbud)]
    exact ⟨fun _ => le_refl _, fun hcon => (by cases hcon)⟩
  · rw [((restartLoop_eq k s st a hlt).2 (by omega))]
    refine ⟨fun hcon => (by cases hcon), fun _ => ?_⟩
    show s.oracleCalls + k < s.cfg.budget
    omega

/-! ### Lemmas: the expansion loop -/

theorem restartLoop_hit_budget :
    ∀ (k : ℕ) (s : PlannerState E) (st : E) (a : ℕ),
      (restartLoop s st a k).2 = true → s.cfg.budget ≤ (restartLoop s st a k).1.oracleCalls := by
  intro k
  induction k with
  | zero => intro s st a h; cases h
  | succ m ih =>
    intro s st a h
    rw [restartLoop, stepState_eq] at h ⊢
    simp only [] at h ⊢
    by_cases hstop : s.cfg.budget ≤ s.oracleCalls + 1
    · rw [if_pos hstop] at h ⊢
      exact hstop
    · rw [if_neg hstop] at h ⊢
      exact ih _ st a h

theorem expandActions_main :
    ∀ (acts : List ℕ) (s : PlannerState E) (p : APath),
      (expandActions s p acts).1.cfg = s.cfg ∧
      (expandActions s p acts).1.env = s.env ∧
      (expandActions s p acts).1.leaves = s.leaves ∧
      (expandActions s p acts).1.runCount = s.runCount ∧
      s.oracleCalls ≤ (expandActions s p acts).1.oracleCalls ∧
      (s.oracleCalls < s.cfg.budget → (expandActions s p acts).1.oracleCalls ≤ s.cfg.budget) ∧
      ((expandActions s p acts).2 = true → (expandActions s p acts).1.raised = s.raised) ∧
      (s.raised = false → (expandActions s p acts).2 = true → acts ≠ [] →
          (expandActions s p acts).1.oracleCalls < s.cfg.budget) ∧
      (s.raised = false → (expandActions s p acts).2 = false →
          (expandActions s p acts).1.raised = true ∨
            s.cfg.budget ≤ (expandActions s p acts).1.oracleCalls) := by
  intro acts
  induction acts with
  | nil =>
    intro s p
    refine ⟨rfl, rfl, rfl, rfl, le_refl _, fun h => le_of_lt h, fun _ => rfl, ?_, ?_⟩
    · intro _ _ hcon; exact absurd rfl hcon
    · intro _ hcon; cases hcon
  | cons a rest ih =>
    intro s p
    rw [expandActions]
    cases hgn : getNode s.root p with
    | none =>
      simp only []
      exact ⟨trivial, trivial, trivial, trivial, le_refl _, fun h => le_of_lt h,
        fun hcon => absurd hcon Bool.false_ne_true, fun _ hcon _ => absurd hcon Bool.false_ne_true, fun _ _ => Or.inl trivial⟩
    | some self =>
      simp only []
      cases hst : self.state with
      | none =>
        simp only []
        exact ⟨trivial, trivial, trivial, trivial, le_refl _, fun h => le_of_lt h,
          fun hcon => absurd hcon Bool.false_ne_true, fun _ hcon _ => absurd hcon Bool.false_ne_true, fun _ _ => Or.inl trivial⟩
      | some st =>
        simp only []
        cases hreq : (if s.cfg.restart = true then restartLoop { s with root := modifyAt s.root p (fun t => t.setChildren (t.children ++ [mkChild st (self.depth + 1)])) } st a self.depth else ({ s with root := modifyAt s.root p (fun t => t.setChildren (t.children ++ [mkChild st (self.depth + 1)])) }, false)) with
        | mk s2 hit =>
          have hS1cfg : ({ s with root := modifyAt s.root p (fun t => t.setChildren (t.children ++ [mkChild st (self.depth + 1)])) } : PlannerState E).cfg = s.cfg := rfl
          have hS1calls : ({ s with root := modifyAt s.root p (fun t => t.setChildren (t.children ++ [mkChild st (self.depth + 1)])) } : PlannerState E).oracleCalls = s.oracleCalls := rfl
          have hs2 : s2.cfg = s.cfg ∧ s2.env = s.env ∧ s2.leaves = s.leaves ∧
              s2.raised = s.raised ∧ s2.runCount = s.runCount ∧
              s.oracleCalls ≤ s2.oracleCalls := by
            by_cases hre : s.cfg.restart = true
            · rw [if_pos hre] at hreq
              have hf := restartLoop_frame self.depth { s with root := modifyAt s.root p (fun t => t.setChildren (t.children ++ [mkChild st (self.depth + 1)])) } st a
              rw [hreq] at hf
              exact ⟨hf.1, hf.2.1, hf.2.2.1, hf.2.2.2.2.1, hf.2.2.2.2.2.1, hf.2.2.2.2.2.2⟩
            · rw [if_neg hre] at hreq
              cases hreq
              exact ⟨rfl, rfl, rfl, rfl, rfl, le_refl _⟩
          have hs2hit : hit = true → s.cfg.budget ≤ s2.oracleCalls := by
            intro hh
            subst hh
            by_cases hre : s.cfg.restart = true
            · rw [if_pos hre] at hreq
              have h2 := restartLoop_hit_budget self.depth { s with root := modifyAt s.root p (fun t => t.setChildren (t.children ++ [mkChild st (self.depth + 1)])) } st a
              rw [hreq] at h2
              exact h2 rfl
            · rw [if_neg hre] at hreq
              cases hreq
          have hs2nohit : hit = false → s.oracleCalls < s.cfg.budget →
              s2.oracleCalls < s.cfg.budget := by
            intro hh hcb
            subst hh
            by_cases hre : s.cfg.restart = true
            · rw [if_pos hre] at hreq
              have h2 := (restartLoop_budget self.depth { s with root := modifyAt s.root p (fun t => t.setChildren (t.children ++ [mkChild st (self.depth + 1)])) } st a (by rw [hS1calls, hS1cfg]; exact hcb)).2
              rw [hreq] at h2
              exact h2 rfl
            · rw [if_neg hre] at hreq
              cases hreq
              exact hcb
          have hs2hitle : hit = true → s.oracleCalls < s.cfg.budget →
              s2.oracleCalls ≤ s.cfg.budget := by
            intro hh hcb
            subst hh
            by_cases hre : s.cfg.restart = true
            · rw [if_pos hre] at hreq
              have h2 := (restartLoop_budget self.depth { s with root := modifyAt s.root p (fun t => t.setChildren (t.children ++ [mkChild st (self.depth + 1)])) } st a (by rw [hS1calls, hS1cfg]; exact hcb)).1
              rw [hreq] at h2
              rw [hS1cfg] at h2
              exact h2 rfl
            · rw [if_neg hre] at hreq
              cases hreq
          obtain ⟨hs2cfg, hs2env, hs2leaves, hs2raised, hs2run, hs2mono⟩ := hs2
          cases hit with
          | true =>
            simp only []
            refine ⟨hs2cfg, hs2env, hs2leaves, hs2run, hs2mono, ?_, ?_, ?_, ?_⟩
            · intro hcb
              exact hs2hitle rfl hcb
            · intro hcon; cases hcon
            · intro _ hcon; cases hcon
            · intro _ _
              right
              exact hs2hit rfl
          | false =>
            simp only []
            rw [stepState_eq]
            simp only []
            have hS3calls : ({ s2 with oracleCalls := s2.oracleCalls + 1, trace := s2.trace ++ [(st, a)] } : PlannerState E).oracleCalls = s2.oracleCalls + 1 := rfl
            cases hgc : getNode (modifyAt s2.root (p ++ [a]) (fun t => t.setState (some (s2.env.step st a).1))) (p ++ [a]) with
            | none =>
              simp only []
              refine ⟨hs2cfg, hs2env, hs2leaves, hs2run, by omega, ?_, ?_, ?_, ?_⟩
              · intro hcb
                have := hs2nohit rfl hcb
                omega
              · intro hcon; cases hcon
              · intro _ hcon; cases hcon
              · intro _ _; exact Or.inl trivial
            | some child =>
              simp only []
              cases hup : update s2.cfg.gamma self.value child (s2.env.step st a).2.1 (s2.env.step st a).2.2 with
              | error e =>
                simp only []
                refine ⟨hs2cfg, hs2env, hs2leaves, hs2run, by omega, ?_, ?_, ?_, ?_⟩
                · intro hcb
                  have := hs2nohit rfl hcb
                  omega
                · intro hcon; cases hcon
                · intro _ hcon; cases hcon
                · intro _ _; exact Or.inl trivial
              | ok child2 =>
                simp only []
                by_cases hstop2 : s2.cfg.budget ≤ s2.oracleCalls + 1
                · rw [if_pos hstop2]
                  refine ⟨hs2cfg, hs2env, hs2leaves, hs2run, ?_, ?_, ?_, ?_, ?_⟩
                  · show s.oracleCalls ≤ s2.oracleCalls + 1
                    omega
                  · intro hcb
                    show s2.oracleCalls + 1 ≤ s.cfg.budget
                    have h12 := hs2nohit rfl hcb
                    omega
                  · intro hcon; cases hcon
                  · intro _ hcon; cases hcon
                  · intro _ _
                    right
                    show s.cfg.budget ≤ s2.oracleCalls + 1
                    rw [← hs2cfg]
                    exact hstop2
                · rw [if_neg hstop2]
                  have ih4 := ih { s2 with oracleCalls := s2.oracleCalls + 1, trace := s2.trace ++ [(st, a)], root := modifyAt (modifyAt s2.root (p ++ [a]) (fun t => t.setState (some (s2.env.step st a).1))) (p ++ [a]) (fun _ => child2) } p
                  have hS4cfg : ({ s2 with oracleCalls := s2.oracleCalls + 1, trace := s2.trace ++ [(st, a)], root := modifyAt (modifyAt s2.root (p ++ [a]) (fun t => t.setState (some (s2.env.step st a).1))) (p ++ [a]) (fun _ => child2) } : PlannerState E).cfg = s2.cfg := rfl
                  have hS4calls : ({ s2 with oracleCalls := s2.oracleCalls + 1, trace := s2.trace ++ [(st, a)], root := modifyAt (modifyAt s2.root (p ++ [a]) (fun t => t.setState (some (s2.env.step st a).1))) (p ++ [a]) (fun _ => child2) } : PlannerState E).oracleCalls = s2.oracleCalls + 1 := rfl
                  have hS4raised : ({ s2 with oracleCalls := s2.oracleCalls + 1, trace := s2.trace ++ [(st, a)], root := modifyAt (modifyAt s2.root (p ++ [a]) (fun t => t.setState (some (s2.env.step st a).1))) (p ++ [a]) (fun _ => child2) } : PlannerState E).raised = s2.raised := rfl
                  have hS4env : ({ s2 with oracleCalls := s2.oracleCalls + 1, trace := s2.trace ++ [(st, a)], root := modifyAt (modifyAt s2.root (p ++ [a]) (fun t => t.setState (some (s2.env.step st a).1))) (p ++ [a]) (fun _ => child2) } : PlannerState E).env = s2.env := rfl
                  have hS4leaves : ({ s2 with oracleCalls := s2.oracleCalls + 1, trace := s2.trace ++ [(st, a)], root := modifyAt (modifyAt s2.root (p ++ [a]) (fun t => t.setState (some (s2.env.step st a).1))) (p ++ [a]) (fun _ => child2) } : PlannerState E).leaves = s2.leaves := rfl
                  have hS4run : ({ s2 with oracleCalls := s2.oracleCalls + 1, trace := s2.trace ++ [(st, a)], root := modifyAt (modifyAt s2.root (p ++ [a]) (fun t => t.setState (some (s2.env.step st a).1))) (p ++ [a]) (fun _ => child2) } : PlannerState E).runCount = s2.runCount := rfl
                  obtain ⟨ih1, ih2, ih3, ih4r, ih5, ih6, ih7, ih8, ih9⟩ := ih4
                  rw [hS4cfg] at ih1
                  rw [hS4env] at ih2
                  rw [hS4leaves] at ih3
                  rw [hS4run] at ih4r
                  rw [hS4calls] at ih5
                  rw [hS4calls, hS4cfg] at ih6
                  rw [hS4raised] at ih7
                  rw [hS4raised, hS4cfg] at ih8
                  rw [hS4raised, hS4cfg] at ih9
                  refine ⟨by rw [ih1, hs2cfg], by rw [ih2, hs2env], by rw [ih3, hs2leaves],
                    by rw [ih4r, hs2run], by omega, ?_, ?_, ?_, ?_⟩
                  · intro hcb
                    have h8 := hs2nohit rfl hcb
                    have h9 := ih6 (by omega)
                    exact le_trans h9 (le_of_eq (by rw [hs2cfg]))
                  · intro hfl
                    rw [ih7 hfl, hs2raised]
                  · intro hra hfl _
                    cases hre2 : rest with
                    | nil =>
                      show (expandActions { s2 with oracleCalls := s2.oracleCalls + 1, trace := s2.trace ++ [(st, a)], root := modifyAt (modifyAt s2.root (p ++ [a]) (fun t => t.setState (some (s2.env.step st a).1))) (p ++ [a]) (fun _ => child2) } p ([] : List ℕ)).1.oracleCalls < s.cfg.budget
                      show s2.oracleCalls + 1 < s.cfg.budget
                      have h13 : s2.cfg.budget = s.cfg.budget := by rw [hs2cfg]
                      omega
                    | cons b bs =>
                      have h10 := ih8 (by rw [hs2raised]; exact hra) hfl (by rw [hre2]; simp)
                      rw [hre2] at h10
                      have h13 : s2.cfg.budget = s.cfg.budget := by rw [hs2cfg]
                      omega
                  · intro hra hfl
                    have h11 := ih9 (by rw [hs2raised]; exact hra) hfl
                    have h13 : s2.cfg.budget = s.cfg.budget := by rw [hs2cfg]
                    rcases h11 with h11 | h11
                    · exact Or.inl h11
                    · right
                      omega

/-! ### Lemmas: `expand`, `run`, `planLoop` -/

theorem expand_budget (s : PlannerState E) (p : APath) :
    (expand s p).cfg = s.cfg ∧ (expand s p).env = s.env ∧
    s.oracleCalls ≤ (expand s p).oracleCalls ∧
    (s.oracleCalls < s.cfg.budget → (expand s p).oracleCalls ≤ s.cfg.budget) ∧
    (expand s p).runCount = s.runCount := by
  rw [expand]
  cases hg : getNode s.root p with
  | none => exact ⟨rfl, rfl, le_refl _, fun h => le_of_lt h, rfl⟩
  | some nd =>
    simp only []
    cases hst : nd.state with
    | none => exact ⟨rfl, rfl, le_refl _, fun h => le_of_lt h, rfl⟩
    | some st =>
      simp only []
      have em := expandActions_main (List.range s.env.n) s p
      by_cases hfl : (expandActions s p (List.range s.env.n)).2 = true
      · rw [if_pos hfl]
        exact ⟨em.1, em.2.1, em.2.2.2.2.1, em.2.2.2.2.2.1, em.2.2.2.1⟩
      · rw [if_neg hfl]
        exact ⟨em.1, em.2.1, em.2.2.2.2.1, em.2.2.2.2.2.1, em.2.2.2.1⟩

theorem expand_leaves {s : PlannerState E} {p : APath} {nd : DNode E}
    (hg : getNode s.root p = some nd) {st : E} (hst : nd.state = some st)
    (hn : 1 ≤ s.env.n) (hra : s.raised = false) :
    ((expand s p).raised = false → (expand s p).oracleCalls < s.cfg.budget →
      (expand s p).leaves = s.leaves.erase p ++ (List.range s.env.n).map (fun b => p ++ [b])) ∧
    (s.cfg.budget ≤ (expand s p).oracleCalls → (expand s p).leaves = s.leaves) := by
  rw [expand, hg]
  simp only [hst]
  have em := expandActions_main (List.range s.env.n) s p
  have hnempty : List.range s.env.n ≠ [] := by
    intro hcon
    have := congrArg List.length hcon
    simp at this
    omega
  by_cases hfl : (expandActions s p (List.range s.env.n)).2 = true
  · rw [if_pos hfl]
    simp only []
    constructor
    · intro _ _
      rw [em.2.2.1, em.2.1]
    · intro hbud
      have hlt := em.2.2.2.2.2.2.2.1 hra hfl hnempty
      omega
  · rw [if_neg hfl]
    have hfl2 : (expandActions s p (List.range s.env.n)).2 = false := by
      cases h2 : (expandActions s p (List.range s.env.n)).2
      · rfl
      · exact absurd h2 hfl
    constructor
    · intro hra2 hlt
      rcases em.2.2.2.2.2.2.2.2 hra hfl2 with h3 | h3
      · rw [h3] at hra2; cases hra2
      · omega
    · intro _
      exact em.2.2.1

theorem run_main (s : PlannerState E) :
    (run s).cfg = s.cfg ∧ (run s).env = s.env ∧
    s.oracleCalls ≤ (run s).oracleCalls ∧
    (s.oracleCalls < s.cfg.budget → (run s).oracleCalls ≤ s.cfg.budget) ∧
    (run s).runCount ≤ s.runCount + 1 := by
  rw [run]
  by_cases hra : s.raised = true
  · rw [if_pos hra]
    exact ⟨rfl, rfl, le_refl _, fun h => le_of_lt h, Nat.le_succ _⟩
  · rw [if_neg hra]
    simp only []
    cases hsel : argmaxVub { s with runCount := s.runCount + 1 } with
    | none => exact ⟨rfl, rfl, le_refl _, fun h => le_of_lt h, le_refl _⟩
    | some p =>
      simp only []
      cases hgl : getNode s.root p with
      | none => exact ⟨rfl, rfl, le_refl _, fun h => le_of_lt h, le_refl _⟩
      | some leaf =>
        simp only []
        have eb := expand_budget ({ s with runCount := s.runCount + 1 }) p
        have ebc : (expand { s with runCount := s.runCount + 1 } p).cfg = s.cfg := eb.1
        have ebe : (expand { s with runCount := s.runCount + 1 } p).env = s.env := eb.2.1
        have ebm : s.oracleCalls ≤ (expand { s with runCount := s.runCount + 1 } p).oracleCalls := eb.2.2.1
        have ebb : s.oracleCalls < s.cfg.budget →
            (expand { s with runCount := s.runCount + 1 } p).oracleCalls ≤ s.cfg.budget := eb.2.2.2.1
        have ebr : (expand { s with runCount := s.runCount + 1 } p).runCount = s.runCount + 1 := eb.2.2.2.2
        by_cases hdone : (!leaf.done || s.cfg.ignoreTerminal) = true
        · rw [if_pos hdone]
          by_cases hra2 : (expand { s with runCount := s.runCount + 1 } p).raised = true
          · rw [if_pos hra2]
            exact ⟨ebc, ebe, ebm, ebb, le_of_eq ebr⟩
          · rw [if_neg hra2]
            exact ⟨ebc, ebe, ebm, ebb, le_of_eq ebr⟩
        · rw [if_neg hdone]
          by_cases hra2 : ({ s with runCount := s.runCount + 1 } : PlannerState E).raised = true
          · rw [if_pos hra2]
            exact ⟨rfl, rfl, le_refl _, fun h => le_of_lt h, le_refl _⟩
          · rw [if_neg hra2]
            exact ⟨rfl, rfl, le_refl _, fun h => le_of_lt h, le_refl _⟩

theorem planLoop_main :
    ∀ (k : ℕ) (s : PlannerState E), s.oracleCalls < s.cfg.budget →
      (planLoop k s).oracleCalls ≤ s.cfg.budget ∧
      (planLoop k s).runCount ≤ s.runCount + k ∧
      (planLoop k s).cfg = s.cfg ∧ (planLoop k s).env = s.env := by
  intro k
  induction k with
  | zero => intro s h; exact ⟨le_of_lt h, le_refl _, rfl, rfl⟩
  | succ m ih =>
    intro s h
    rw [planLoop]
    by_cases hra : s.raised = true
    · rw [if_pos hra]
      exact ⟨le_of_lt h, by omega, rfl, rfl⟩
    · rw [if_neg hra]
      have rm := run_main s
      by_cases hstop : (run s).cfg.budget ≤ (run s).oracleCalls
      · rw [if_pos hstop]
        refine ⟨rm.2.2.2.1 h, by omega, rm.1, rm.2.1⟩
      · rw [if_neg hstop]
        have hlt2 : (run s).oracleCalls < (run s).cfg.budget := by omega
        have ihm := ih (run s) hlt2
        have hcfg : (run s).cfg = s.cfg := rm.1
        refine ⟨by rw [← hcfg]; exact ihm.1, ?_, by rw [ihm.2.2.1, hcfg], by rw [ihm.2.2.2, rm.2.1]⟩
        have := ihm.2.1
        have := rm.2.2.2.2
        omega

/-! ### Lemmas: the ghost trace counts exactly the oracle calls -/

theorem restartLoop_trace :
    ∀ (k : ℕ) (s : PlannerState E) (st : E) (a : ℕ), s.trace.length = s.oracleCalls →
      (restartLoop s st a k).1.trace.length = (restartLoop s st a k).1.oracleCalls := by
  intro k
  induction k with
  | zero => intro s st a h; exact h
  | succ m ih =>
    intro s st a h
    rw [restartLoop, stepState_eq]
    simp only []
    by_cases hstop : s.cfg.budget ≤ s.oracleCalls + 1
    · rw [if_pos hstop]
      show (s.trace ++ [(st, a)]).length = s.oracleCalls + 1
      simp [h]
    · rw [if_neg hstop]
      exact ih _ st a (by show (s.trace ++ [(st, a)]).length = s.oracleCalls + 1; simp [h])

theorem expandActions_trace :
    ∀ (acts : List ℕ) (s : PlannerState E) (p : APath), s.trace.length = s.oracleCalls →
      (expandActions s p acts).1.trace.length = (expandActions s p acts).1.oracleCalls := by
  intro acts
  induction acts with
  | nil => intro s p h; exact h
  | cons a rest ih =>
    intro s p h
    rw [expandActions]
    cases hgn : getNode s.root p with
    | none => exact h
    | some self =>
      simp only []
      cases hst : self.state with
      | none => exact h
      | some st =>
        simp only []
        cases hreq : (if s.cfg.restart = true then restartLoop { s with root := modifyAt s.root p (fun t => t.setChildren (t.children ++ [mkChild st (self.depth + 1)])) } st a self.depth else ({ s with root := modifyAt s.root p (fun t => t.setChildren (t.children ++ [mkChild st (self.depth + 1)])) }, false)) with
        | mk s2 hit =>
          have hs2tr : s2.trace.length = s2.oracleCalls := by
            by_cases hre : s.cfg.restart = true
            · rw [if_pos hre] at hreq
              have h2 := restartLoop_trace self.depth { s with root := modifyAt s.root p (fun t => t.setChildren (t.children ++ [mkChild st (self.depth + 1)])) } st a h
              rw [hreq] at h2
              exact h2
            · rw [if_neg hre] at hreq
              cases hreq
              exact h
          cases hit with
          | true => exact hs2tr
          | false =>
            simp only []
            rw [stepState_eq]
            simp only []
            cases hgc : getNode (modifyAt s2.root (p ++ [a]) (fun t => t.setState (some (s2.env.step st a).1))) (p ++ [a]) with
            | none =>
              show (s2.trace ++ [(st, a)]).length = s2.oracleCalls + 1
              simp [hs2tr]
            | some child =>
              simp only []
              cases hup : update s2.cfg.gamma self.value child (s2.env.step st a).2.1 (s2.env.step st a).2.2 with
              | error e =>
                show (s2.trace ++ [(st, a)]).length = s2.oracleCalls + 1
                simp [hs2tr]
              | ok child2 =>
                simp only []
                by_cases hstop2 : s2.cfg.budget ≤ s2.oracleCalls + 1
                · rw [if_pos hstop2]
                  show (s2.trace ++ [(st, a)]).length = s2.oracleCalls + 1
                  simp [hs2tr]
                · rw [if_neg hstop2]
                  exact ih _ p (by show (s2.trace ++ [(st, a)]).length = s2.oracleCalls + 1; simp [hs2tr])

theorem expand_trace (s : PlannerState E) (p : APath) (h : s.trace.length = s.oracleCalls) :
    (expand s p).trace.length = (expand s p).oracleCalls := by
  rw [expand]
  cases hg : getNode s.root p with
  | none => exact h
  | some nd =>
    simp only []
    cases hst : nd.state with
    | none => exact h
    | some st =>
      simp only []
      by_cases hfl : (expandActions s p (List.range s.env.n)).2 = true
      · rw [if_pos hfl]
        exact expandActions_trace (List.range s.env.n) s p h
      · rw [if_neg hfl]
        exact expandActions_trace (List.range s.env.n) s p h

theorem run_trace (s : PlannerState E) (h : s.trace.length = s.oracleCalls) :
    (run s).trace.length = (run s).oracleCalls := by
  rw [run]
  by_cases hra : s.raised = true
  · rw [if_pos hra]
    exact h
  · rw [if_neg hra]
    simp only []
    cases hsel : argmaxVub { s with runCount := s.runCount + 1 } with
    | none => exact h
    | some p =>
      simp only []
      cases hgl : getNode s.root p with
      | none => exact h
      | some leaf =>
        simp only []
        by_cases hdone : (!leaf.done || s.cfg.ignoreTerminal) = true
        · rw [if_pos hdone]
          have he := expand_trace ({ s with runCount := s.runCount + 1 }) p h
          by_cases hra2 : (expand { s with runCount := s.runCount + 1 } p).raised = true
          · rw [if_pos hra2]
            exact he
          · rw [if_neg hra2]
            exact he
        · rw [if_neg hdone]
          by_cases hra2 : ({ s with runCount := s.runCount + 1 } : PlannerState E).raised = true
          · rw [if_pos hra2]
            exact h
          · rw [if_neg hra2]
            exact h

theorem planLoop_trace :
    ∀ (k : ℕ) (s : PlannerState E), s.trace.length = s.oracleCalls →
      (planLoop k s).trace.length = (planLoop k s).oracleCalls := by
  intro k
  induction k with
  | zero => intro s h; exact h
  | succ m ih =>
    intro s h
    rw [planLoop]
    by_cases hra : s.raised = true
    · rw [if_pos hra]
      exact h
    · rw [if_neg hra]
      by_cases hstop : (run s).cfg.budget ≤ (run s).oracleCalls
      · rw [if_pos hstop]
        exact run_trace s h
      · rw [if_neg hstop]
        exact ih (run s) (run_trace s h)

/-! ### Claim theorems -/

/-- C7: for every `plan(state, observation)` call with positive budget and action-space
size `n ≥ 1`: the oracle-call counter is reset to zero at the start (the result does
not depend on the incoming counter), `run()` is invoked at most `ceil(budget / n)`
times, and the number of Simulation-Oracle calls consumed — the ghost trace records
each one, and the counter equals its length, so no prefix of the execution ever
exceeds the budget either — never exceeds `budget`. -/
theorem claim_C7 {E : Type} (s : PlannerState E) (state : E)
    (hb : 1 ≤ s.cfg.budget) (hn : 1 ≤ s.env.n) :
    (plan s state).oracleCalls ≤ s.cfg.budget ∧
    (plan s state).runCount ≤ ceilDiv s.cfg.budget s.env.n ∧
    (plan s state).trace.length = (plan s state).oracleCalls ∧
    (∀ k, ((plan s state).trace.take k).length ≤ s.cfg.budget) ∧
    (∀ m, plan { s with oracleCalls := m } state = plan s state) := by
  have hn0 : ¬ s.env.n = 0 := by omega
  have hkey : ∀ m : ℕ, plan { s with oracleCalls := m } state = plan s state := fun m => rfl
  have hplan : plan s state = planLoop (ceilDiv s.cfg.budget s.env.n)
      { s with root := s.root.setState (some state), oracleCalls := 0, trace := [], runCount := 0 } := by
    rw [plan]
    simp only []
    rw [if_neg hn0]
  have pm := planLoop_main (ceilDiv s.cfg.budget s.env.n)
    ({ s with root := s.root.setState (some state), oracleCalls := 0, trace := [], runCount := 0 })
    (by show 0 < s.cfg.budget; omega)
  have pt := planLoop_trace (ceilDiv s.cfg.budget s.env.n)
    ({ s with root := s.root.setState (some state), oracleCalls := 0, trace := [], runCount := 0 })
    (by rfl)
  rw [hplan] at hkey ⊢
  have hc1 : ({ s with root := s.root.setState (some state), oracleCalls := 0, trace := [], runCount := 0 } : PlannerState E).cfg = s.cfg := rfl
  have hc2 : ({ s with root := s.root.setState (some state), oracleCalls := 0, trace := [], runCount := 0 } : PlannerState E).runCount = 0 := rfl
  rw [hc1] at pm
  rw [hc2] at pm
  refine ⟨pm.1, ?_, pt, ?_, hkey⟩
  · have := pm.2.1
    omega
  · intro k
    have h2 : (((planLoop (ceilDiv s.cfg.budget s.env.n) { s with root := s.root.setState (some state), oracleCalls := 0, trace := [], runCount := 0 }).trace.take k)).length ≤ (planLoop (ceilDiv s.cfg.budget s.env.n) { s with root := s.root.setState (some state), oracleCalls := 0, trace := [], runCount := 0 }).trace.length := by
      rw [List.length_take]
      omega
    have h3 := pm.1
    omega

/-- Witness for C7 at a concrete input: the 1-action, reward-1 environment with
budget 10 and the root state bound to 0. -/
theorem claim_C7_witness :
    1 ≤ sA.cfg.budget ∧ 1 ≤ sA.env.n ∧
    ((plan sA 0).oracleCalls ≤ sA.cfg.budget ∧
     (plan sA 0).runCount ≤ ceilDiv sA.cfg.budget sA.env.n ∧
     (plan sA 0).trace.length = (plan sA 0).oracleCalls ∧
     (∀ k, ((plan sA 0).trace.take k).length ≤ sA.cfg.budget) ∧
     (∀ m, plan { sA with oracleCalls := m } 0 = plan sA 0)) :=
  ⟨by decide, by decide, claim_C7 sA 0 (by decide) (by decide)⟩

/-- C9: `backup_values` is idempotent — running the full-subtree backup a second time
on an unchanged tree leaves the whole tree (hence every node's `value` and
`value_upper_bound`) as after the first run, and both calls return the same
`(value, value_upper_bound)` pair. -/
theorem claim_C9 {E : Type} (t : DNode E) :
    (backupValuesT ((backupValuesT t).1)).1 = (backupValuesT t).1 ∧
    (backupValuesT ((backupValuesT t).1)).2 = (backupValuesT t).2 := by
  have h := backupValuesT_idem t
  exact ⟨by rw [h], by rw [h]⟩

/-- C5: for every `backup_to_root` call on a node at a nonempty valid path, the
calling node's own `value` is unchanged; at every level of the upward recursion the
node on the path gets `value_upper_bound` set to the max of the prior bounds of its
parent's children, every strict-prefix ancestor gets `value` set to the max of its
children's (resulting) values — the parent update instance and its recursion up to
the root; the visit count is incremented exactly at the non-root path nodes (the
root's count is unchanged); and on a parentless node (empty path) `backup_to_root`
changes nothing. -/
theorem claim_C5 {E : Type} (t : DNode E) (p : APath) (hne : p ≠ [])
    (hval : (getNode t p).isSome) :
    valAt (backupToRootT t p) p = valAt t p ∧
    (∀ q b q2, p = q ++ b :: q2 →
      vubAtT (backupToRootT t p) (q ++ [b]) = amax (childVubsAt t q)) ∧
    (∀ q b q2, p = q ++ b :: q2 →
      valAt (backupToRootT t p) q = amax (childValsAt (backupToRootT t p) q)) ∧
    (∀ q b q2, p = q ++ b :: q2 →
      cntAt (backupToRootT t p) (q ++ [b]) = cntAt t (q ++ [b]) + 1) ∧
    cntAt (backupToRootT t p) [] = cntAt t [] ∧
    (∀ u : DNode E, backupToRootT u [] = u) := by
  refine ⟨btr_valAt_self p t hval, ?_, ?_, ?_, ?_, fun u => rfl⟩
  · intro q b q2 hsplit
    subst hsplit
    exact btr_vub_split q b q2 t hval
  · intro q b q2 hsplit
    subst hsplit
    exact btr_val_split q b q2 t hval
  · intro q b q2 hsplit
    subst hsplit
    exact btr_cnt_split q b q2 t hval
  · rw [cntAt_of_getNode (getNode_nil _), cntAt_of_getNode (getNode_nil _), btr_root_count]

/-- Witness for C5 at a concrete input: a two-level tree, backing up from the second
child. -/
theorem claim_C5_witness :
    (([1] : APath) ≠ []) ∧
    (getNode (DNode.mk (some (0:ℕ)) 0 0 0 0 1 false
      [DNode.mk (some 1) 1 (1/2) (1/2) (9/2) 1 false [],
       DNode.mk (some 2) 1 (9/10) (9/10) (49/10) 1 false []]) [1]).isSome ∧
    (valAt (backupToRootT (DNode.mk (some (0:ℕ)) 0 0 0 0 1 false
      [DNode.mk (some 1) 1 (1/2) (1/2) (9/2) 1 false [],
       DNode.mk (some 2) 1 (9/10) (9/10) (49/10) 1 false []]) [1]) [1] =
      valAt (DNode.mk (some (0:ℕ)) 0 0 0 0 1 false
      [DNode.mk (some 1) 1 (1/2) (1/2) (9/2) 1 false [],
       DNode.mk (some 2) 1 (9/10) (9/10) (49/10) 1 false []]) [1] ∧ True) := by
  refine ⟨by simp, by simp [getNode], ?_, trivial⟩
  exact (claim_C5 (DNode.mk (some (0:ℕ)) 0 0 0 0 1 false
      [DNode.mk (some 1) 1 (1/2) (1/2) (9/2) 1 false [],
       DNode.mk (some 2) 1 (9/10) (9/10) (49/10) 1 false []]) [1]
    (by simp) (by simp [getNode])).1

/-- C2 (amended): assuming rewards in [0,1] and gamma in (0,1), `value <=
value_upper_bound` holds at every node of the subtree written by each backup pass —
the newly updated child after `update`, every node after a `backup_values`
recomputation over a tree whose leaves satisfy the bound, and every node after a
`backup_to_root` pass over a tree satisfying the bound plus child-domination — but
it does NOT hold at the root across a planning run: the root's `value_upper_bound`
is never written, so its initial 0 can be overtaken by the root `value` that
`backup_to_root` writes. -/
theorem claim_C2 {E : Type} (gamma : ℚ) (h0 : 0 < gamma) (h1 : gamma < 1) :
    (∀ (pv : ℚ) (nd nd2 : DNode E) (r : ℚ) (dn : Bool),
        update gamma pv nd r dn = .ok nd2 → nd2.value ≤ nd2.valueUpperBound) ∧
    (∀ t : DNode E, allNodesB leafLeB t = true → allNodesB leB (backupValuesT t).1 = true) ∧
    (∀ (t : DNode E) (p : APath), allNodesB leB t = true → allNodesB domB t = true →
        allNodesB leB (backupToRootT t p) = true) :=
  ⟨fun _ _ _ _ _ h => update_le h0 h1 h,
   fun t h => (backupValues_le t h).1,
   fun t p hle hdom => (backupToRootT_le p t hle hdom).1⟩

/-- Witness for C2 at gamma = 1/2. -/
theorem claim_C2_witness :
    (0 < (1/2 : ℚ) ∧ (1/2 : ℚ) < 1) ∧
    ((∀ (pv : ℚ) (nd nd2 : DNode ℕ) (r : ℚ) (dn : Bool),
        update (1/2) pv nd r dn = .ok nd2 → nd2.value ≤ nd2.valueUpperBound) ∧
     (∀ t : DNode ℕ, allNodesB leafLeB t = true → allNodesB leB (backupValuesT t).1 = true) ∧
     (∀ (t : DNode ℕ) (p : APath), allNodesB leB t = true → allNodesB domB t = true →
        allNodesB leB (backupToRootT t p) = true)) :=
  ⟨⟨by norm_num, by norm_num⟩, claim_C2 (1/2) (by norm_num) (by norm_num)⟩

/-- C2 counterexample: in the 1-action reward-1 environment with gamma = 1/2 (so all
rewards are in [0,1] and gamma is in (0,1)), after the second run's `backup_to_root`
pass the root has `value = 1` but `value_upper_bound = 0`: the claimed invariant
fails at the root, whose bound is never written. -/
theorem claim_C2_cex :
    (0 < cfgA.gamma ∧ cfgA.gamma < 1) ∧
    (planLoop 2 sA).trace = [(0, 0), (1, 0)] ∧
    (envA.step 0 0).2.1 = 1 ∧ (envA.step 1 0).2.1 = 1 ∧
    valAt (planLoop 2 sA).root [] = 1 ∧
    vubAtT (planLoop 2 sA).root [] = 0 ∧
    ¬ valAt (planLoop 2 sA).root [] ≤ vubAtT (planLoop 2 sA).root [] := by
  norm_num [planLoop, run, sA, makeRoot, cfgA, envA, argmaxVub, vubAt, getNode, expand,
    expandActions, stepState, update, mkChild, modifyAt, backupToRootT, amax, qmax,
    valAt, vubAtT,
    List.range_succ, List.erase, List.foldl, List.filterMap, List.set,
    DNode.setState, DNode.setChildren, DNode.setValue, DNode.setVub, DNode.setReward,
    DNode.setDone, DNode.incCount, DNode.state, DNode.depth, DNode.value,
    DNode.valueUpperBound, DNode.children, DNode.done, DNode.getValueUpperBound]

/-- C1: for every `update(reward, done)` call on a node of depth >= 1 whose parent
has value `pv`, with reward in [0,1]: afterwards
`value = pv + gamma^(depth-1) * reward` and
`value_upper_bound = value + (1 - done) * gamma^depth / (1 - gamma)`; in particular
a `done` child gets `value_upper_bound = value`.  Concretely, with gamma = 4/5 and a
root whose two actions yield non-terminal rewards 1/2 and 9/10, after one expansion
the children have values 1/2, 9/10 and upper bounds 9/2, 49/10; and when the second
action is terminal its child gets upper bound 9/10 = its value. -/
theorem claim_C1 {E : Type} (gamma pv r : ℚ) (nd : DNode E) (dn : Bool)
    (hd : 1 ≤ nd.depth) (hr0 : 0 ≤ r) (hr1 : r ≤ 1) :
    (∃ nd2, update gamma pv nd r dn = .ok nd2 ∧
      nd2.value = pv + gamma ^ (nd.depth - 1) * r ∧
      nd2.valueUpperBound = nd2.value +
        (1 - (if dn then (1:ℚ) else 0)) * gamma ^ nd.depth / (1 - gamma) ∧
      (dn = true → nd2.valueUpperBound = nd2.value)) ∧
    (valAt (run sB).root [0] = 1/2 ∧ valAt (run sB).root [1] = 9/10 ∧
     vubAtT (run sB).root [0] = 9/2 ∧ vubAtT (run sB).root [1] = 49/10) ∧
    (valAt (run sB2).root [1] = 9/10 ∧ vubAtT (run sB2).root [1] = 9/10) := by
  have hok : update gamma pv nd r dn = .ok (DNode.mk nd.state nd.depth r
      (pv + gamma ^ (nd.depth - 1) * r)
      ((pv + gamma ^ (nd.depth - 1) * r) + (if dn then 0 else 1) * gamma ^ nd.depth / (1 - gamma))
      nd.count dn nd.children) := by
    cases nd with
    | mk x1 x2 x3 x4 x5 x6 x7 x8 =>
      rw [update, if_neg (not_not_intro ⟨hr0, hr1⟩)]
      rfl
  refine ⟨⟨_, hok, rfl, ?_, ?_⟩, ?_, ?_⟩
  · cases dn <;> norm_num
  · intro h
    subst h
    norm_num
  · norm_num [run, sB, makeRoot, cfgB, envB, argmaxVub, vubAt, getNode, expand,
      expandActions, stepState, update, mkChild, modifyAt, backupToRootT, amax, qmax,
      valAt, vubAtT,
      List.range_succ, List.erase, List.foldl, List.filterMap, List.set,
      DNode.setState, DNode.setChildren, DNode.setValue, DNode.setVub, DNode.setReward,
      DNode.setDone, DNode.incCount, DNode.getValueUpperBound]
  · norm_num [run, sB2, makeRoot, cfgB, envB2, argmaxVub, vubAt, getNode, expand,
      expandActions, stepState, update, mkChild, modifyAt, backupToRootT, amax, qmax,
      valAt, vubAtT,
      List.range_succ, List.erase, List.foldl, List.filterMap, List.set,
      DNode.setState, DNode.setChildren, DNode.setValue, DNode.setVub, DNode.setReward,
      DNode.setDone, DNode.incCount, DNode.getValueUpperBound]

/-- Witness for C1 at a fresh depth-1 child, gamma = 4/5, reward 1/2, not done. -/
theorem claim_C1_witness :
    (1 ≤ (mkChild (0:ℕ) 1).depth ∧ 0 ≤ (1/2 : ℚ) ∧ (1/2 : ℚ) ≤ 1) ∧
    ((∃ nd2, update (4/5) 0 (mkChild (0:ℕ) 1) (1/2) false = .ok nd2 ∧
      nd2.value = 0 + (4/5 : ℚ) ^ ((mkChild (0:ℕ) 1).depth - 1) * (1/2) ∧
      nd2.valueUpperBound = nd2.value +
        (1 - (if false then (1:ℚ) else 0)) * (4/5 : ℚ) ^ (mkChild (0:ℕ) 1).depth / (1 - 4/5) ∧
      (false = true → nd2.valueUpperBound = nd2.value)) ∧
    (valAt (run sB).root [0] = 1/2 ∧ valAt (run sB).root [1] = 9/10 ∧
     vubAtT (run sB).root [0] = 9/2 ∧ vubAtT (run sB).root [1] = 49/10) ∧
    (valAt (run sB2).root [1] = 9/10 ∧ vubAtT (run sB2).root [1] = 9/10)) :=
  ⟨⟨by decide, by norm_num, by norm_num⟩,
   claim_C1 (4/5) 0 (1/2) (mkChild (0:ℕ) 1) false (by decide) (by norm_num) (by norm_num)⟩

/-- C3 (amended): `expand` updates the Leaf Set only on full completion — when the
expansion returned normally with the oracle-call counter still strictly below the
budget, the expanded node is removed and all its children are appended; when the
budget was reached mid-expansion the early return skips the Leaf-Set update
entirely, leaving it unchanged (even though children were created). -/
theorem claim_C3 {E : Type} (s : PlannerState E) (p : APath) (nd : DNode E) (st : E)
    (hg : getNode s.root p = some nd) (hst : nd.state = some st)
    (hn : 1 ≤ s.env.n) (hra : s.raised = false) :
    ((expand s p).raised = false → (expand s p).oracleCalls < s.cfg.budget →
      (expand s p).leaves = s.leaves.erase p ++ (List.range s.env.n).map (fun b => p ++ [b])) ∧
    (s.cfg.budget ≤ (expand s p).oracleCalls → (expand s p).leaves = s.leaves) :=
  expand_leaves hg hst hn hra

/-- Witness for C3: full completion of the root expansion in the two-action
environment with budget 10. -/
theorem claim_C3_witness :
    (getNode sB.root [] = some sB.root ∧ sB.root.state = some 0 ∧
     1 ≤ sB.env.n ∧ sB.raised = false) ∧
    (((expand sB []).raised = false → (expand sB []).oracleCalls < sB.cfg.budget →
      (expand sB []).leaves =
        sB.leaves.erase [] ++ (List.range sB.env.n).map (fun b => [] ++ [b])) ∧
     (sB.cfg.budget ≤ (expand sB []).oracleCalls → (expand sB []).leaves = sB.leaves)) :=
  ⟨⟨rfl, rfl, by decide, rfl⟩, claim_C3 sB [] sB.root 0 rfl rfl (by decide) rfl⟩

/-- C3 counterexample: with budget 1 and two actions, expanding the root stops after
the first action: the oracle-call counter has reached the budget, a first child WAS
created, yet the Leaf Set still contains the expanded node and not the child — the
claimed removal/addition did not happen on this partial completion. -/
theorem claim_C3_cex :
    (expand sT []).oracleCalls = cfgT.budget ∧
    (getNode (expand sT []).root [0]).isSome = true ∧
    (expand sT []).leaves = [[]] ∧
    ([] ∈ (expand sT []).leaves ∧ ¬ ([0] ∈ (expand sT []).leaves)) := by
  norm_num [expand, sT, makeRoot, cfgT, envT, getNode,
    expandActions, stepState, update, mkChild, modifyAt,
    List.range_succ, List.erase, List.foldl, List.filterMap, List.set,
    DNode.setState, DNode.setChildren, DNode.setValue, DNode.setVub, DNode.setReward,
    DNode.setDone, DNode.incCount]

theorem getNode_append_child {t nd : DNode E} {p : APath}
    (hg : getNode t p = some nd) (c : DNode E) :
    getNode (modifyAt t p (fun u => u.setChildren (u.children ++ [c])))
      (p ++ [nd.children.length]) = some c := by
  rw [getNode_append, getNode_modifyAt_self _ hg]
  show getNode (nd.setChildren (nd.children ++ [c])) [nd.children.length] = some c
  rw [getNode_cons]
  simp [List.get?_concat_length, getNode_nil]

/-- C8: `update(reward, done)` raises the range-violation error if and only if the
reward violates `0 <= reward <= 1` (with the source's fixed message, no correction
and no retry), and when it raises inside an expansion the child node is left exactly
as constructed — its reward, value, done and value_upper_bound keep their prior
(constructor-default) values, only the state having been written by the oracle step
that preceded the failed update. -/
theorem claim_C8 {E : Type} (gamma pv : ℚ) (nd : DNode E) (r : ℚ) (dn : Bool) :
    ((∃ e, update gamma pv nd r dn = .error e) ↔ ¬(0 ≤ r ∧ r ≤ 1)) ∧
    (∀ e, update gamma pv nd r dn = .error e →
      e = "This planner assumes that all rewards are normalized in 0..1") ∧
    (∀ (s : PlannerState E) (p : APath) (self : DNode E) (st : E) (z : List ℕ),
      s.raised = false → getNode s.root p = some self → self.state = some st →
      s.cfg.restart = false → self.children = [] →
      ¬(0 ≤ (s.env.step st 0).2.1 ∧ (s.env.step st 0).2.1 ≤ 1) →
      (expandActions s p (0 :: z)).1.raised = true ∧
      getNode (expandActions s p (0 :: z)).1.root (p ++ [0]) =
        some ((mkChild st (self.depth + 1)).setState (some (s.env.step st 0).1))) := by
  refine ⟨?_, ?_, ?_⟩
  · by_cases hbad : (0 ≤ r ∧ r ≤ 1)
    · rw [update, if_neg (not_not_intro hbad)]
      simp [hbad]
    · rw [update, if_pos hbad]
      simp [hbad]
  · intro e he
    by_cases hbad : (0 ≤ r ∧ r ≤ 1)
    · rw [update, if_neg (not_not_intro hbad)] at he
      exact absurd he (by simp)
    · rw [update, if_pos hbad] at he
      simp only [Except.error.injEq] at he
      exact he.symm
  · intro s p self st z hra hg hst hre hch hbad
    rw [expandActions, hg]
    simp only [hst]
    rw [hre]
    simp only [Bool.false_eq_true, if_false]
    have hc0 := getNode_append_child hg (mkChild st (self.depth + 1))
    rw [hch] at hc0
    simp only [List.length_nil] at hc0
    rw [stepState_eq]
    simp only []
    have hc1 := getNode_modifyAt_self
      (fun t => t.setState (some (s.env.step st 0).1)) hc0
    rw [hc1]
    simp only []
    have herr : update s.cfg.gamma self.value
        ((fun t => t.setState (some (s.env.step st 0).1)) (mkChild st (self.depth + 1)))
        (s.env.step st 0).2.1 (s.env.step st 0).2.2 =
        .error "This planner assumes that all rewards are normalized in 0..1" := by
      rw [update, if_pos hbad]
    rw [herr]
    simp only []
    exact ⟨trivial, hc1⟩

/-- Witness for C8 at a concrete input: gamma = 1/2, a fresh depth-1 child, the
out-of-range reward 2. -/
theorem claim_C8_witness :
    ((∃ e, update (1/2) 0 (mkChild (0:ℕ) 1) 2 false = .error e) ↔ ¬((0:ℚ) ≤ 2 ∧ (2:ℚ) ≤ 1)) ∧
    (∀ e, update (1/2) 0 (mkChild (0:ℕ) 1) 2 false = .error e →
      e = "This planner assumes that all rewards are normalized in 0..1") ∧
    (∀ (s : PlannerState ℕ) (p : APath) (self : DNode ℕ) (st : ℕ) (z : List ℕ),
      s.raised = false → getNode s.root p = some self → self.state = some st →
      s.cfg.restart = false → self.children = [] →
      ¬(0 ≤ (s.env.step st 0).2.1 ∧ (s.env.step st 0).2.1 ≤ 1) →
      (expandActions s p (0 :: z)).1.raised = true ∧
      getNode (expandActions s p (0 :: z)).1.root (p ++ [0]) =
        some ((mkChild st (self.depth + 1)).setState (some (s.env.step st 0).1))) :=
  claim_C8 (1/2) 0 (mkChild (0:ℕ) 1) 2 false

/-- C10: every child node freshly created by `expand` carries the constructor
defaults — reward 0, value 0, value_upper_bound 0, done false, count 1, depth =
parent depth + 1, no children.  Concretely, when the second run of the
budget-3 restart scenario aborts inside the fake replay, the never-updated child at
path [1, 0] still carries exactly these defaults (with its state set to the clone
and depth 2 = parent depth + 1), so the `backup_to_root` pass that follows reads
these zeros. -/
theorem claim_C10 {E : Type} (st : E) (dep : ℕ) :
    ((mkChild st dep).reward = 0 ∧ (mkChild st dep).value = 0 ∧
     (mkChild st dep).valueUpperBound = 0 ∧ (mkChild st dep).done = false ∧
     (mkChild st dep).count = 1 ∧ (mkChild st dep).depth = dep ∧
     (mkChild st dep).children = []) ∧
    ((getNode (planLoop 2 sR3).root [1]).map DNode.depth = some 1 ∧
     (getNode (planLoop 2 sR3).root [1, 0]).map DNode.fields =
       some (some 2, 2, 0, 0, 0, 1, false)) := by
  refine ⟨⟨rfl, rfl, rfl, rfl, rfl, rfl, rfl⟩, ?_⟩
  norm_num [planLoop, run, sR3, makeRoot, cfgR3, envR, argmaxVub, vubAt, getNode, expand,
    expandActions, restartLoop, stepState, update, mkChild, modifyAt, backupToRootT,
    amax, qmax, DNode.fields,
    List.range_succ, List.erase, List.foldl, List.filterMap, List.set,
    DNode.setState, DNode.setChildren, DNode.setValue, DNode.setVub, DNode.setReward,
    DNode.setDone, DNode.incCount, DNode.getValueUpperBound]

theorem restartLoop_trace_mono :
    ∀ (k : ℕ) (s : PlannerState E) (st : E) (a : ℕ),
      ∃ tl, (restartLoop s st a k).1.trace = s.trace ++ tl := by
  intro k
  induction k with
  | zero => intro s st a; exact ⟨[], by simp [restartLoop]⟩
  | succ m ih =>
    intro s st a
    rw [restartLoop, stepState_eq]
    simp only []
    by_cases hstop : s.cfg.budget ≤ s.oracleCalls + 1
    · rw [if_pos hstop]
      exact ⟨[(st, a)], rfl⟩
    · rw [if_neg hstop]
      obtain ⟨tl, htl⟩ := ih ({ s with oracleCalls := s.oracleCalls + 1, trace := s.trace ++ [(st, a)] }) st a
      refine ⟨[(st, a)] ++ tl, ?_⟩
      rw [htl]
      show (s.trace ++ [(st, a)]) ++ tl = s.trace ++ ([(st, a)] ++ tl)
      simp

theorem expandActions_trace_mono :
    ∀ (acts : List ℕ) (s : PlannerState E) (p : APath),
      ∃ tl, (expandActions s p acts).1.trace = s.trace ++ tl := by
  intro acts
  induction acts with
  | nil => intro s p; exact ⟨[], by simp [expandActions]⟩
  | cons a rest ih =>
    intro s p
    rw [expandActions]
    cases hgn : getNode s.root p with
    | none => exact ⟨[], by simp⟩
    | some self =>
      simp only []
      cases hst : self.state with
      | none => exact ⟨[], by simp⟩
      | some st =>
        simp only []
        cases hreq : (if s.cfg.restart = true then restartLoop { s with root := modifyAt s.root p (fun t => t.setChildren (t.children ++ [mkChild st (self.depth + 1)])) } st a self.depth else ({ s with root := modifyAt s.root p (fun t => t.setChildren (t.children ++ [mkChild st (self.depth + 1)])) }, false)) with
        | mk s2 hit =>
          have hs2tr : ∃ tl0, s2.trace = s.trace ++ tl0 := by
            by_cases hre : s.cfg.restart = true
            · rw [if_pos hre] at hreq
              obtain ⟨tl0, htl0⟩ := restartLoop_trace_mono self.depth { s with root := modifyAt s.root p (fun t => t.setChildren (t.children ++ [mkChild st (self.depth + 1)])) } st a
              rw [hreq] at htl0
              exact ⟨tl0, htl0⟩
            · rw [if_neg hre] at hreq
              cases hreq
              exact ⟨[], by simp⟩
          obtain ⟨tl0, htl0⟩ := hs2tr
          cases hit with
          | true => exact ⟨tl0, htl0⟩
          | false =>
            simp only []
            rw [stepState_eq]
            simp only []
            cases hgc : getNode (modifyAt s2.root (p ++ [a]) (fun t => t.setState (some (s2.env.step st a).1))) (p ++ [a]) with
            | none =>
              refine ⟨tl0 ++ [(st, a)], ?_⟩
              show s2.trace ++ [(st, a)] = s.trace ++ (tl0 ++ [(st, a)])
              rw [htl0]
              simp
            | some child =>
              simp only []
              cases hup : update s2.cfg.gamma self.value child (s2.env.step st a).2.1 (s2.env.step st a).2.2 with
              | error e =>
                refine ⟨tl0 ++ [(st, a)], ?_⟩
                show s2.trace ++ [(st, a)] = s.trace ++ (tl0 ++ [(st, a)])
                rw [htl0]
                simp
              | ok child2 =>
                simp only []
                by_cases hstop2 : s2.cfg.budget ≤ s2.oracleCalls + 1
                · rw [if_pos hstop2]
                  refine ⟨tl0 ++ [(st, a)], ?_⟩
                  show s2.trace ++ [(st, a)] = s.trace ++ (tl0 ++ [(st, a)])
                  rw [htl0]
                  simp
                · rw [if_neg hstop2]
                  obtain ⟨tl1, htl1⟩ := ih _ p
                  refine ⟨tl0 ++ [(st, a)] ++ tl1, ?_⟩
                  rw [htl1]
                  show (s2.trace ++ [(st, a)]) ++ tl1 = s.trace ++ (tl0 ++ [(st, a)] ++ tl1)
                  rw [htl0]
                  simp

/-- C6 (amended): in restart mode `expand` does NOT replay the ancestor action
sequence.  For each new child it makes `depth` oracle calls that all step a fresh
clone of the child's still-unstepped state (= the parent's state) with the child's
OWN action, discarding the results, and then steps the child's clone directly with
that same action — so every call of the "replay" uses the same (state, action) pair.
If the budget is exhausted during the fake replay, the expansion aborts immediately
(consuming exactly the remaining budget on fake calls), leaving the just-created
child with no computed reward/value. -/
theorem claim_C6 {E : Type} (s : PlannerState E) (p : APath) (self : DNode E)
    (st : E) (a : ℕ) (z : List ℕ)
    (hra : s.raised = false) (hg : getNode s.root p = some self)
    (hst : self.state = some st) (hre : s.cfg.restart = true)
    (hcb : s.oracleCalls < s.cfg.budget) :
    (s.cfg.budget ≤ s.oracleCalls + self.depth →
      expandActions s p (a :: z) =
        ({ s with root := modifyAt s.root p (fun t => t.setChildren (t.children ++ [mkChild st (self.depth + 1)])), oracleCalls := s.cfg.budget, trace := s.trace ++ List.replicate (s.cfg.budget - s.oracleCalls) (st, a) }, false) ∧
      getNode (expandActions s p (a :: z)).1.root (p ++ [self.children.length]) =
        some (mkChild st (self.depth + 1))) ∧
    (s.oracleCalls + self.depth < s.cfg.budget →
      ∃ tl, (expandActions s p (a :: z)).1.trace =
        s.trace ++ List.replicate self.depth (st, a) ++ [(st, a)] ++ tl) := by
  constructor
  · intro habort
    have hrl := (restartLoop_eq self.depth { s with root := modifyAt s.root p (fun t => t.setChildren (t.children ++ [mkChild st (self.depth + 1)])) } st a hcb).1 habort
    have heq : expandActions s p (a :: z) =
        ({ s with root := modifyAt s.root p (fun t => t.setChildren (t.children ++ [mkChild st (self.depth + 1)])), oracleCalls := s.cfg.budget, trace := s.trace ++ List.replicate (s.cfg.budget - s.oracleCalls) (st, a) }, false) := by
      rw [expandActions, hg]
      simp only [hst]
      rw [hre]
      simp only [if_true]
      rw [hrl]
    refine ⟨heq, ?_⟩
    rw [heq]
    exact getNode_append_child hg (mkChild st (self.depth + 1))
  · intro hok
    have hrl := (restartLoop_eq self.depth { s with root := modifyAt s.root p (fun t => t.setChildren (t.children ++ [mkChild st (self.depth + 1)])) } st a hcb).2 hok
    rw [expandActions, hg]
    simp only [hst]
    rw [hre]
    simp only [if_true]
    rw [hrl]
    simp only []
    rw [stepState_eq]
    simp only []
    cases hgc : getNode (modifyAt (modifyAt s.root p (fun t => t.setChildren (t.children ++ [mkChild st (self.depth + 1)]))) (p ++ [a]) (fun t => t.setState (some (s.env.step st a).1))) (p ++ [a]) with
    | none =>
      refine ⟨[], ?_⟩
      show (s.trace ++ List.replicate self.depth (st, a)) ++ [(st, a)] =
        s.trace ++ List.replicate self.depth (st, a) ++ [(st, a)] ++ []
      simp
    | some child =>
      simp only []
      cases hup : update s.cfg.gamma self.value child (s.env.step st a).2.1 (s.env.step st a).2.2 with
      | error e =>
        refine ⟨[], ?_⟩
        show (s.trace ++ List.replicate self.depth (st, a)) ++ [(st, a)] =
          s.trace ++ List.replicate self.depth (st, a) ++ [(st, a)] ++ []
        simp
      | ok child2 =>
        simp only []
        by_cases hstop2 : s.cfg.budget ≤ s.oracleCalls + self.depth + 1
        · rw [if_pos hstop2]
          refine ⟨[], ?_⟩
          show (s.trace ++ List.replicate self.depth (st, a)) ++ [(st, a)] =
            s.trace ++ List.replicate self.depth (st, a) ++ [(st, a)] ++ []
          simp
        · rw [if_neg hstop2]
          obtain ⟨tl, htl⟩ := expandActions_trace_mono z _ p
          refine ⟨tl, ?_⟩
          rw [htl]

/-- Witness for C6 at the hand-built restart-mode state `sW`, expanding the second
child (depth 1, state 2) with action 0. -/
theorem claim_C6_witness :
    (sW.raised = false ∧
     getNode sW.root [1] = some (DNode.mk (some 2) 1 (2/10) (2/10) (12/10) 1 false []) ∧
     (DNode.mk (some (2:ℕ)) 1 ((2:ℚ)/10) (2/10) (12/10) 1 false []).state = some 2 ∧
     sW.cfg.restart = true ∧ sW.oracleCalls < sW.cfg.budget) ∧
    ((sW.cfg.budget ≤ sW.oracleCalls + 1 →
      expandActions sW [1] [0] =
        ({ sW with root := modifyAt sW.root [1] (fun t => t.setChildren (t.children ++ [mkChild 2 2])), oracleCalls := sW.cfg.budget, trace := sW.trace ++ List.replicate (sW.cfg.budget - sW.oracleCalls) (2, 0) }, false) ∧
      getNode (expandActions sW [1] [0]).1.root [1, 0] = some (mkChild 2 2)) ∧
     (sW.oracleCalls + 1 < sW.cfg.budget →
      ∃ tl, (expandActions sW [1] [0]).1.trace =
        sW.trace ++ List.replicate 1 (2, 0) ++ [(2, 0)] ++ tl)) :=
  ⟨⟨rfl, rfl, rfl, rfl, by decide⟩,
   claim_C6 sW [1] (DNode.mk (some 2) 1 (2/10) (2/10) (12/10) 1 false []) 2 0 []
     rfl rfl rfl rfl (by decide)⟩

/-- C6 counterexample: two runs over the two-action environment with restart on and
budget 100.  The second run expands the depth-1 child reached by action 1 (state 2).
The claimed ancestor replay for its first new child would make the oracle calls
[(0, 1), (2, 0)] — stepping the root state with the ancestor action first.  The
actual trace segment of the expansion is [(2, 0), (2, 0)]: both the fake-replay call
and the direct call step the child's state 2 with the child's own action 0. -/
theorem claim_C6_cex :
    sR.cfg.restart = true ∧
    (planLoop 2 sR).trace = [(0, 0), (0, 1), (2, 0), (2, 0), (2, 1), (2, 1)] ∧
    replaySpecTrace envR 0 [1] 0 = [(0, 1), (2, 0)] ∧
    ((planLoop 2 sR).trace.drop 2).take 2 = [(2, 0), (2, 0)] ∧
    ¬ ((planLoop 2 sR).trace.drop 2).take 2 = replaySpecTrace envR 0 [1] 0 := by
  norm_num [planLoop, run, sR, makeRoot, cfgR, envR, argmaxVub, vubAt, getNode, expand,
    expandActions, restartLoop, stepState, update, mkChild, modifyAt, backupToRootT,
    amax, qmax, replaySpecTrace, replayStates,
    List.range_succ, List.erase, List.foldl, List.filterMap, List.set,
    DNode.setState, DNode.setChildren, DNode.setValue, DNode.setVub, DNode.setReward,
    DNode.setDone, DNode.incCount, DNode.getValueUpperBound]

theorem getNode_modifyAt_of_diverge {g : DNode E → DNode E} :
    ∀ (w : APath) (t : DNode E) (q : APath),
      (∀ r, w ≠ q ++ r) → (∀ r, q ≠ w ++ r) →
      getNode (modifyAt t w g) q = getNode t q := by
  intro w
  induction w with
  | nil =>
    intro t q h1 h2
    exact absurd (show q = [] ++ q from by simp) (h2 q)
  | cons b wr ih =>
    intro t q h1 h2
    match q with
    | [] => exact absurd (show (b :: wr : APath) = [] ++ (b :: wr) from by simp) (h1 (b :: wr))
    | c :: qr =>
      rw [modifyAt]
      cases hgb : t.children.get? b with
      | none => rfl
      | some ch =>
        simp only []
        rw [getNode_cons, getNode_cons, DNode.setChildren_def, DNode.children_mk]
        by_cases hbc : b = c
        · subst hbc
          have hlt : b < t.children.length := (List.get?_eq_some.mp hgb).1
          rw [List.get?_set_eq_of_lt _ hlt, hgb]
          simp only []
          exact ih ch qr
            (fun r hr => h1 r (by rw [List.cons_append, hr]))
            (fun r hr => h2 r (by rw [List.cons_append, hr]))
        · rw [List.get?_set_ne _ _ hbc]

theorem getNode_foldl_modifyAt_of_diverge {g : DNode E → DNode E} :
    ∀ (L : List APath) (t : DNode E) (q : APath),
      (∀ w ∈ L, (∀ r, w ≠ q ++ r) ∧ (∀ r, q ≠ w ++ r)) →
      getNode (L.foldl (fun acc w => modifyAt acc w g) t) q = getNode t q := by
  intro L
  induction L with
  | nil => intro t q h; rfl
  | cons w L2 ih =>
    intro t q h
    rw [List.foldl_cons]
    rw [ih (modifyAt t w g) q (fun w2 hw2 => h w2 (List.mem_cons_of_mem w hw2))]
    exact getNode_modifyAt_of_diverge w t q
      (h w (List.mem_cons_self w L2)).1 (h w (List.mem_cons_self w L2)).2

theorem diverge_of_leaves {t : DNode E} {w q : APath} {nw nq : DNode E}
    (hw : getNode t w = some nw) (hq : getNode t q = some nq) (hqc : nq.children = [])
    (hne : w ≠ q) : ∀ r, w ≠ q ++ r := by
  intro r hr
  match r with
  | [] => exact hne (by simpa using hr)
  | b :: r2 =>
    subst hr
    rw [getNode_append, hq] at hw
    simp only [Option.some_bind] at hw
    rw [getNode_cons, hqc] at hw
    simp at hw

theorem getNode_foldl_modifyAt_leaf {g : DNode E → DNode E}
    (hgch : ∀ u, (g u).children = u.children) :
    ∀ (L : List APath) (t : DNode E) (q : APath) (nq : DNode E),
      L.Nodup →
      (∀ w ∈ L, ∃ nw, getNode t w = some nw ∧ nw.children = []) →
      q ∈ L → getNode t q = some nq →
      getNode (L.foldl (fun acc w => modifyAt acc w g) t) q = some (g nq) := by
  intro L
  induction L with
  | nil => intro t q nq _ _ hq; cases hq
  | cons w L2 ih =>
    intro t q nq hnd hall hqL hq
    obtain ⟨nq1, hq1, hqc1⟩ := hall q hqL
    have hnqc : nq.children = [] := by
      rw [hq] at hq1
      cases hq1
      exact hqc1
    rw [List.foldl_cons]
    by_cases hqw : q = w
    · subst hqw
      have hmod := getNode_modifyAt_self g hq
      rw [getNode_foldl_modifyAt_of_diverge L2 (modifyAt t q g) q ?hdv]
      · exact hmod
      case hdv =>
        intro w2 hw2
        obtain ⟨nw2, hw2v, hw2c⟩ := hall w2 (List.mem_cons_of_mem q hw2)
        have hne : w2 ≠ q := by
          intro hcon
          subst hcon
          exact (List.nodup_cons.mp hnd).1 hw2
        exact ⟨diverge_of_leaves hw2v hq hnqc hne,
               diverge_of_leaves hq hw2v hw2c (fun hcon => hne hcon.symm)⟩
    · obtain ⟨nw, hwv, hwc⟩ := hall w (List.mem_cons_self w L2)
      have hq2 : getNode (modifyAt t w g) q = some nq := by
        rw [getNode_modifyAt_of_diverge w t q
          (diverge_of_leaves hwv hq hnqc (fun hcon => hqw hcon.symm))
          (diverge_of_leaves hq hwv hwc hqw)]
        exact hq
      have hall2 : ∀ w2 ∈ L2, ∃ nw2, getNode (modifyAt t w g) w2 = some nw2 ∧ nw2.children = [] := by
        intro w2 hw2
        obtain ⟨nw2, hw2v, hw2c⟩ := hall w2 (List.mem_cons_of_mem w hw2)
        by_cases hw2w : w2 = w
        · subst hw2w
          refine ⟨g nw2, ?_, by rw [hgch, hw2c]⟩
          have := getNode_modifyAt_self g hw2v
          rw [hw2v] at hwv
          cases hwv
          exact this
        · refine ⟨nw2, ?_, hw2c⟩
          rw [getNode_modifyAt_of_diverge w t w2
            (diverge_of_leaves hwv hw2v hw2c (fun hcon => hw2w hcon.symm))
            (diverge_of_leaves hw2v hwv hwc hw2w)]
          exact hw2v
      have hqL2 : q ∈ L2 := by
        rcases List.mem_cons.mp hqL with hcon | h
        · exact absurd hcon hqw
        · exact h
      exact ih (modifyAt t w g) q nq (List.nodup_cons.mp hnd).2 hall2 hqL2 hq2

theorem rescaleLeaf_children (gamma rr : ℚ) (u : DNode E) :
    (rescaleLeaf gamma rr u).children = u.children := by
  rw [rescaleLeaf, DNode.setValue_def, DNode.setVub_def]
  rfl

/-- C4 (amended): after `step_by_subtree(action)` commits to a child `c` with
children, every retained leaf `L` satisfies
`L.value_after = (L.value_before - new_root.reward) / gamma` — the reward subtracted
is that of the NEW root (the promoted child `c`), not the old root's, because the
generic promotion runs before the rescaling loop reads `self.root.reward` — and
likewise for `value_upper_bound`; if the new root has no children, the Leaf Set is
reset to contain exactly the new root. -/
theorem claim_C4 {E : Type} (s : PlannerState E) (a : ℕ) (c : DNode E)
    (hc : s.root.children.get? a = some c)
    (hnodup : (retainedLeaves s.leaves a).Nodup)
    (hcc : c.children.isEmpty = false)
    (hall : ∀ w ∈ retainedLeaves s.leaves a, ∃ nw, getNode c w = some nw ∧ nw.children = []) :
    (∀ q nq, q ∈ retainedLeaves s.leaves a → getNode c q = some nq →
      valAt (stepBySubtree s a).root q = (nq.value - c.reward) / s.cfg.gamma ∧
      vubAtT (stepBySubtree s a).root q = (nq.valueUpperBound - c.reward) / s.cfg.gamma) ∧
    (∀ (s2 : PlannerState E) (b : ℕ) (c2 : DNode E), s2.root.children.get? b = some c2 →
      c2.children.isEmpty = true → (stepBySubtree s2 b).leaves = [[]]) := by
  constructor
  · intro q nq hqL hq
    have hstep : stepBySubtree s a = { s with root := (backupValuesT ((retainedLeaves s.leaves a).foldl (fun t w => modifyAt t w (rescaleLeaf s.cfg.gamma c.reward)) c)).1, leaves := retainedLeaves s.leaves a } := by
      rw [stepBySubtree, hc]
      simp only [hcc, Bool.false_eq_true, if_false]
    rw [hstep]
    simp only []
    have hfold := getNode_foldl_modifyAt_leaf (rescaleLeaf_children s.cfg.gamma c.reward)
      (retainedLeaves s.leaves a) c q nq hnodup hall hqL hq
    have hnqc : nq.children = [] := by
      obtain ⟨nq1, hq1, hc1⟩ := hall q hqL
      rw [hq] at hq1
      cases hq1
      exact hc1
    have hbvt := getNode_backupValuesT hfold (by rw [rescaleLeaf_children]; exact hnqc)
    constructor
    · rw [valAt_of_getNode hbvt]
      simp [rescaleLeaf]
    · rw [vubAtT_of_getNode hbvt]
      simp [rescaleLeaf]
  · intro s2 b c2 hb hcc2
    rw [stepBySubtree, hb]
    simp only [hcc2, if_true]

/-- Witness for C4 at the hand-built two-level state `sV`, committing to the second
child (reward 9/10) and reading the retained leaf [0] (the first grandchild). -/
theorem claim_C4_witness :
    (sV.root.children.get? 1 = some (DNode.mk (some 2) 1 (9/10) (9/10) (49/10) 2 false [DNode.mk (some 5) 2 (1/4) (11/10) (43/10) 1 false [], DNode.mk (some 6) 2 (3/4) (3/2) (47/10) 1 false []]) ∧
     (retainedLeaves sV.leaves 1).Nodup ∧
     (DNode.mk (some (2:ℕ)) 1 ((9:ℚ)/10) (9/10) (49/10) 2 false [DNode.mk (some 5) 2 (1/4) (11/10) (43/10) 1 false [], DNode.mk (some 6) 2 (3/4) (3/2) (47/10) 1 false []]).children.isEmpty = false ∧
     [0] ∈ retainedLeaves sV.leaves 1) ∧
    (valAt (stepBySubtree sV 1).root [0] =
      ((11:ℚ)/10 - 9/10) / sV.cfg.gamma ∧
     vubAtT (stepBySubtree sV 1).root [0] =
      ((43:ℚ)/10 - 9/10) / sV.cfg.gamma) :=
  ⟨⟨rfl, by decide, rfl, by decide⟩,
   (claim_C4 sV 1 (DNode.mk (some 2) 1 (9/10) (9/10) (49/10) 2 false [DNode.mk (some 5) 2 (1/4) (11/10) (43/10) 1 false [], DNode.mk (some 6) 2 (3/4) (3/2) (47/10) 1 false []]) rfl (by decide) rfl
     (by
      intro w hw
      have he : retainedLeaves sV.leaves 1 = [[0], [1]] := rfl
      rw [he] at hw
      rcases List.mem_cons.mp hw with rfl | hw2
      · exact ⟨DNode.mk (some 5) 2 (1/4) (11/10) (43/10) 1 false [], rfl, rfl⟩
      · rcases List.mem_cons.mp hw2 with rfl | hw3
        · exact ⟨DNode.mk (some 6) 2 (3/4) (3/2) (47/10) 1 false [], rfl, rfl⟩
        · cases hw3)).1
     [0] (DNode.mk (some 5) 2 (1/4) (11/10) (43/10) 1 false []) (by decide) rfl⟩

/-- C4 counterexample: two runs over `envD` (gamma = 4/5), then committing to the
second child (reward 9/10).  The retained grandchild leaf [1,0] had value 11/10 and
bound 43/10; the old root's reward is 0; after the commit the leaf (now at [0]) has
value 1/4 = (11/10 - 9/10)/(4/5) and bound 17/4 = (43/10 - 9/10)/(4/5) — NOT the
claimed (11/10 - 0)/(4/5) = 11/8 and (43/10 - 0)/(4/5) = 43/8: the subtracted reward
is the promoted child's, not the old root's. -/
theorem claim_C4_cex :
    sD.cfg.gamma = 4/5 ∧
    valAt (planLoop 2 sD).root [1, 0] = 11/10 ∧
    vubAtT (planLoop 2 sD).root [1, 0] = 43/10 ∧
    (getNode (planLoop 2 sD).root []).map DNode.reward = some 0 ∧
    retainedLeaves (planLoop 2 sD).leaves 1 = [[0], [1]] ∧
    valAt (stepBySubtree (planLoop 2 sD) 1).root [0] = 1/4 ∧
    vubAtT (stepBySubtree (planLoop 2 sD) 1).root [0] = 17/4 ∧
    ¬ ((1:ℚ)/4 = (11/10 - 0) / (4/5)) ∧
    ¬ ((17:ℚ)/4 = (43/10 - 0) / (4/5)) := by
  norm_num [planLoop, run, sD, makeRoot, cfgB, envD, argmaxVub, vubAt, getNode, expand,
    expandActions, stepState, update, mkChild, modifyAt, backupToRootT, backupValuesT,
    backupValuesL, amax, qmax, valAt, vubAtT, stepBySubtree, retainedLeaves, rescaleLeaf,
    List.range_succ, List.erase, List.foldl, List.filterMap, List.set,
    DNode.setState, DNode.setChildren, DNode.setValue, DNode.setVub, DNode.setReward,
    DNode.setDone, DNode.incCount, DNode.getValueUpperBound]
